import Mathlib

/-!
Verification of the LZ4 block decoder in `src/pkg/goDB/encoder/lz4/lz4.c`
(LZ4 1.9.2 core, as vendored by els0r/goProbe).

The embedding models the byte buffers as `Array Nat` (the source buffer
spans exactly the declared `compressedSize` bytes, the destination buffer
exactly the declared `dstCapacity` bytes), cursors as `Int` (matching C
pointer arithmetic, where expressions such as `iend - RUN_MASK` may denote
positions before the start of the buffer), and every single memory access
is bounds-checked: an access outside the declared regions yields a
distinguished `DecErr` outcome instead of silently reading a default.
Hence "the decoder never reads outside src and never writes outside dst"
is exactly the statement that decoding never produces a `DecErr`.

All recursion is structural (on `Nat` fuel or counts), so every decoder
run on a concrete input evaluates by `decide`/`rfl`.

`LZ4_decompress_generic` is embedded at the instantiation used by
`LZ4_decompress_safe` (lz4.c:1065-1071): `endOnInput = endOnInputSize`,
`partialDecoding = decode_full_block`, `dict = noDict`, `lowPrefix = dst`,
`dictStart = NULL`, `dictSize = 0`; consequently `safeDecode = 1` and
`checkOffset = 1`, and the `usingExtDict` branches are unreachable.
The `LZ4_FAST_DEC_LOOP` compile-time switch is kept as an explicit `Bool`
parameter of the entry point.
-/

namespace LZ4

/-- Out-of-bounds access (or fuel exhaustion of the loop driver, which is
proved unreachable): the outcomes the C code's pointer discipline must avoid. -/
inductive DecErr where
  | srcRead  : DecErr
  | dstRead  : DecErr
  | dstWrite : DecErr
  | fuel     : DecErr
deriving DecidableEq, Repr

abbrev M (α : Type) : Type := Except DecErr α

instance exceptDecEq {ε α : Type} [DecidableEq ε] [DecidableEq α] :
    DecidableEq (Except ε α) := fun x y =>
  match x, y with
  | .ok a, .ok b =>
    if h : a = b then .isTrue (by rw [h]) else .isFalse (by simp [h])
  | .error e, .error f =>
    if h : e = f then .isTrue (by rw [h]) else .isFalse (by simp [h])
  | .ok _, .error _ => .isFalse (by simp)
  | .error _, .ok _ => .isFalse (by simp)

/-- Bounds-checked read of one byte of the compressed source
(`src[0 .. compressedSize)`). -/
def rdSrc (src : Array Nat) (i : Int) : M Nat :=
  if 0 ≤ i ∧ i < (src.size : Int) then .ok (src.getD i.toNat 0) else .error .srcRead

/-- Bounds-checked read of one byte of the destination buffer
(`dst[0 .. dstCapacity)`), used by match copies. -/
def rdDst (d : Array Nat) (i : Int) : M Nat :=
  if 0 ≤ i ∧ i < (d.size : Int) then .ok (d.getD i.toNat 0) else .error .dstRead

/-- Bounds-checked write of one byte of the destination buffer. -/
def wrDst (d : Array Nat) (i : Int) (v : Nat) : M (Array Nat) :=
  if 0 ≤ i ∧ i < (d.size : Int) then .ok (d.set! i.toNat v) else .error .dstWrite

/-- Read `k` consecutive source bytes starting at `i`. -/
def rdSrcN (src : Array Nat) (i : Int) : Nat → M (List Nat)
  | 0 => .ok []
  | k + 1 => do
    let b ← rdSrc src i
    let bs ← rdSrcN src (i + 1) k
    pure (b :: bs)

/-- Read `k` consecutive destination bytes starting at `i`. -/
def rdDstN (d : Array Nat) (i : Int) : Nat → M (List Nat)
  | 0 => .ok []
  | k + 1 => do
    let b ← rdDst d i
    let bs ← rdDstN d (i + 1) k
    pure (b :: bs)

/-- Write the bytes `bs` into the destination starting at `i`. -/
def wrDstList (d : Array Nat) (i : Int) : List Nat → M (Array Nat)
  | [] => .ok d
  | b :: bs => do
    let d ← wrDst d i b
    wrDstList d (i + 1) bs

/-- The C `memcpy(dst+di, src+si, k)` between the two distinct buffers
(all bytes read, then all written). -/
def memcpySD (src : Array Nat) (d : Array Nat) (si di : Int) (k : Nat) : M (Array Nat) := do
  let bs ← rdSrcN src si k
  wrDstList d di bs

/-- A `memcpy` of `k` bytes inside the destination buffer.  Every `memcpy`
issued by the decoder on overlapping-capable positions has disjoint source
and destination ranges, so read-all-then-write-all is its exact semantics. -/
def memcpyDD (d : Array Nat) (si di : Int) (k : Nat) : M (Array Nat) := do
  let bs ← rdDstN d si k
  wrDstList d di bs

/-- Overlap-tolerant byte-by-byte copy inside the destination buffer
(the `while (op < endOfMatch) *op++ = *match++;` loops and the
`op[0] = match[0]; ...` sequences of lz4.c). -/
def byteCopyDD (d : Array Nat) (si di : Int) : Nat → M (Array Nat)
  | 0 => .ok d
  | k + 1 => do
    let b ← rdDst d si
    let d ← wrDst d di b
    byteCopyDD d (si + 1) (di + 1) k

/-- The write `LZ4_write32(p, 0)` (lz4.c:412, 1022): write four zero bytes. -/
def wrDst32zero (d : Array Nat) (i : Int) : M (Array Nat) :=
  wrDstList d i [0, 0, 0, 0]

/-- Model of `LZ4_readLE16` (lz4.c:329-337): two source bytes, little-endian. -/
def LZ4_readLE16 (src : Array Nat) (i : Int) : M Nat := do
  let b0 ← rdSrc src i
  let b1 ← rdSrc src (i + 1)
  pure (b0 + 256 * b1)

/-- Number of 8-byte chunks the do-while loop of `LZ4_wildCopy8`
(lz4.c:341-348) executes when started at `d` with target `e`:
at least one chunk, then further chunks while the cursor is below `e`. -/
def chunks8 (d e : Int) : Nat := (e - d - 1).toNat / 8 + 1

/-- Number of 32-byte chunks of `LZ4_wildCopy32` (lz4.c:394-401). -/
def chunks32 (d e : Int) : Nat := (e - d - 1).toNat / 32 + 1

/-- Chunk loop of `LZ4_wildCopy8` copying from the source buffer
(literal copies): `do { memcpy(d,s,8); d+=8; s+=8; } while (d<e);`. -/
def wildCopy8SDGo (src : Array Nat) (d : Array Nat) (si di : Int) : Nat → M (Array Nat)
  | 0 => .ok d
  | k + 1 => do
    let d ← memcpySD src d si di 8
    wildCopy8SDGo src d (si + 8) (di + 8) k

/-- Model of `LZ4_wildCopy8(dst+di, src+si, dst+e)` with the source inside the
compressed buffer; may overwrite up to 7 bytes beyond `e`. -/
def LZ4_wildCopy8SD (src : Array Nat) (d : Array Nat) (si di e : Int) : M (Array Nat) :=
  wildCopy8SDGo src d si di (chunks8 di e)

/-- Chunk loop of `LZ4_wildCopy8` copying inside the destination buffer
(match copies; each 8-byte `memcpy` has disjoint ranges because the
callers guarantee `di - si ≥ 8`). -/
def wildCopy8DDGo (d : Array Nat) (si di : Int) : Nat → M (Array Nat)
  | 0 => .ok d
  | k + 1 => do
    let d ← memcpyDD d si di 8
    wildCopy8DDGo d (si + 8) (di + 8) k

/-- Model of `LZ4_wildCopy8` within the destination buffer. -/
def LZ4_wildCopy8DD (d : Array Nat) (si di e : Int) : M (Array Nat) :=
  wildCopy8DDGo d si di (chunks8 di e)

/-- Chunk loop of `LZ4_wildCopy32` from the source buffer: each iteration
copies two 16-byte halves (lz4.c:400); with distinct buffers this equals
one 32-byte copy. -/
def wildCopy32SDGo (src : Array Nat) (d : Array Nat) (si di : Int) : Nat → M (Array Nat)
  | 0 => .ok d
  | k + 1 => do
    let d ← memcpySD src d si di 32
    wildCopy32SDGo src d (si + 32) (di + 32) k

/-- Model of `LZ4_wildCopy32` with the source inside the compressed buffer. -/
def LZ4_wildCopy32SD (src : Array Nat) (d : Array Nat) (si di e : Int) : M (Array Nat) :=
  wildCopy32SDGo src d si di (chunks32 di e)

/-- Chunk loop of `LZ4_wildCopy32` within the destination buffer: the two
16-byte `memcpy`s of each chunk are sequential (the second may read bytes
the first wrote, which matters for offsets in [16,32)). -/
def wildCopy32DDGo (d : Array Nat) (si di : Int) : Nat → M (Array Nat)
  | 0 => .ok d
  | k + 1 => do
    let d ← memcpyDD d si di 16
    let d ← memcpyDD d (si + 16) (di + 16) 16
    wildCopy32DDGo d (si + 32) (di + 32) k

/-- Model of `LZ4_wildCopy32` within the destination buffer. -/
def LZ4_wildCopy32DD (d : Array Nat) (si di e : Int) : M (Array Nat) :=
  wildCopy32DDGo d si di (chunks32 di e)

/-- The table `inc32table` (lz4.c:350). -/
def inc32table (o : Nat) : Nat := [0, 1, 2, 1, 0, 4, 4, 4].getD o 0

/-- The table `dec64table` (lz4.c:351). -/
def dec64table (o : Nat) : Int := [0, 0, 0, -1, -4, 1, 2, 3].getD o 0

/-- Result discriminator of `read_variable_length` (lz4.c:619):
`loop_error = -2`, `initial_error = -1`, `ok = 0`. -/
inductive VLErr where
  | vlOk : VLErr
  | initial : VLErr
  | loopErr : VLErr
deriving DecidableEq, Repr

/-- Result of `read_variable_length`: error code, accumulated length,
and the advanced input cursor (the C function advances `*ip` in place). -/
structure VarLenRes where
  err : VLErr
  add : Nat
  ip : Int
deriving DecidableEq, Repr

/-- Body loop of `read_variable_length` (lz4.c:629-637).  The accumulator
is the C local `unsigned length` (32-bit), so each `length += s` wraps
modulo `2^32`.  The fuel is `src.size + 1` at every call site; it never
runs out because each iteration reads (in bounds) at a strictly
increasing cursor. -/
def readVarLenGo (src : Array Nat) (lencheck : Int) (loopCheck : Bool) :
    Nat → Int → Nat → M VarLenRes
  | 0, _, _ => .error .fuel
  | fuel + 1, ip, acc => do
    let s ← rdSrc src ip
    let ip := ip + 1
    let acc := (acc + s) % 4294967296
    if loopCheck ∧ ip ≥ lencheck then
      pure ⟨.loopErr, acc, ip⟩
    else if s = 255 then
      readVarLenGo src lencheck loopCheck fuel ip acc
    else
      pure ⟨.vlOk, acc, ip⟩

/-- Model of `read_variable_length` (lz4.c:620-640): repeatedly read one byte and
add it to the 32-bit `unsigned` accumulator (which wraps modulo `2^32`),
stopping at the first byte below 255; the two check toggles guard the
cursor against `lencheck`. -/
def read_variable_length (src : Array Nat) (ip : Int) (lencheck : Int)
    (loopCheck initialCheck : Bool) : M VarLenRes :=
  if initialCheck ∧ ip ≥ lencheck then
    pure ⟨.initial, 0, ip⟩
  else
    readVarLenGo src lencheck loopCheck (src.size + 1) ip 0

/-- The mutable local state of `LZ4_decompress_generic`: input cursor `ip`,
output cursor `op` (both as indices into the declared regions), and the
destination buffer contents. -/
structure S where
  ip : Int
  op : Int
  dst : Array Nat
deriving DecidableEq, Repr

/-- Result of one complete iteration of a decode loop: either continue at
the top of the fast loop (`next true`) or of the safe loop (`next false`),
or leave `LZ4_decompress_generic` with a return value and the final buffer. -/
inductive StepRes where
  | next : Bool → S → StepRes
  | stop : Int → Array Nat → StepRes
deriving DecidableEq, Repr

/-- The label `_output_error` (lz4.c:1060-1061): `return -(ip - src) - 1`. -/
def output_error (ip : Int) (d : Array Nat) : StepRes := .stop (-ip - 1) d

/-- Iterated 8-byte pattern write: the `memcpy(dstPtr, v, 8); dstPtr += 8;`
chunks of `LZ4_memcpy_using_offset` (lz4.c:432-437). -/
def patternWriteGo (d : Array Nat) (v : List Nat) (di : Int) : Nat → M (Array Nat)
  | 0 => .ok d
  | k + 1 => do
    let d ← wrDstList d di v
    patternWriteGo d v (di + 8) k

/-- Iterations of a `while (dstPtr < dstEnd)` loop advancing by 8. -/
def whileChunks8 (d e : Int) : Nat := (e - d + 7).toNat / 8

/-- Model of `LZ4_memcpy_using_offset_base` (lz4.c:369-388). -/
def LZ4_memcpy_using_offset_base (d : Array Nat) (dp sp ep : Int) (offset : Nat) :
    M (Array Nat) :=
  if offset < 8 then do
    let d ← byteCopyDD d sp dp 4
    let sp2 : Int := sp + (inc32table offset : Int)
    let d ← memcpyDD d sp2 (dp + 4) 4
    LZ4_wildCopy8DD d (sp2 - dec64table offset) (dp + 8) ep
  else do
    let d ← memcpyDD d sp dp 8
    LZ4_wildCopy8DD d (sp + 8) (dp + 8) ep

/-- Model of `LZ4_memcpy_using_offset` (lz4.c:406-438): fast-loop match copy for
offsets below 16; for offsets 1, 2 and 4 it tiles a precomputed 8-byte
pattern, otherwise it defers to the base routine. -/
def LZ4_memcpy_using_offset (d : Array Nat) (dp sp ep : Int) (offset : Nat) :
    M (Array Nat) := do
  let d ← wrDst32zero d dp      -- silence-msan write, lz4.c:412
  match offset with
  | 1 => do
    let b ← rdDst d sp
    patternWriteGo d [b, b, b, b, b, b, b, b] dp (1 + whileChunks8 (dp + 8) ep)
  | 2 => do
    let b0 ← rdDst d sp
    let b1 ← rdDst d (sp + 1)
    patternWriteGo d [b0, b1, b0, b1, b0, b1, b0, b1] dp (1 + whileChunks8 (dp + 8) ep)
  | 4 => do
    let b0 ← rdDst d sp
    let b1 ← rdDst d (sp + 1)
    let b2 ← rdDst d (sp + 2)
    let b3 ← rdDst d (sp + 3)
    patternWriteGo d [b0, b1, b2, b3, b0, b1, b2, b3] dp (1 + whileChunks8 (dp + 8) ep)
  | _ => LZ4_memcpy_using_offset_base d dp sp ep offset

/-- Head of the safe-loop match copy (lz4.c:1021-1034): copy the first
8 bytes, using the `inc32table`/`dec64table` trick for offsets below 8;
returns the buffer and the adjusted match cursor. -/
def matchCopyHead (d : Array Nat) (matc op : Int) (offset : Nat) :
    M (Array Nat × Int) :=
  if offset < 8 then do
    let d ← wrDst32zero d op
    let d ← byteCopyDD d matc op 4
    let m2 : Int := matc + (inc32table offset : Int)
    let d ← memcpyDD d m2 (op + 4) 4
    pure (d, m2 - dec64table offset)
  else do
    let d ← memcpyDD d matc op 8
    pure (d, matc + 8)

/-- Safe-loop match copy, label `safe_match_copy` (lz4.c:970-1049), with
`length` already including MINMATCH.  Specialised to `noDict`
(`lowPrefix = dst`, `dictSize = 0`): the `checkOffset` test at lz4.c:972 is
`match + dictSize < lowPrefix`, i.e. `matc + 0 < 0`. -/
def matchCopyStage (length offset : Nat) (ip op : Int) (d : Array Nat) : M StepRes :=
  let m : Int := d.size
  let matc : Int := op - (offset : Int)
  if matc + 0 < 0 then .ok (output_error ip d)
  else do
    let cpy : Int := op + (length : Int)
    let hd ← matchCopyHead d matc op offset
    let d := hd.1
    let m3 : Int := hd.2
    let op2 : Int := op + 8
    if cpy > m - 12 then        -- oend - MATCH_SAFEGUARD_DISTANCE, lz4.c:1036
      if cpy > m - 5 then .ok (output_error ip d)       -- oend - LASTLITERALS, lz4.c:1038
      else if op2 < m - 7 then do                       -- oCopyLimit = oend - (WILDCOPYLENGTH-1)
        let d ← LZ4_wildCopy8DD d m3 op2 (m - 7)
        let d ← byteCopyDD d (m3 + (m - 7 - op2)) (m - 7) (cpy - (m - 7)).toNat
        pure (StepRes.next false ⟨ip, cpy, d⟩)
      else do
        let d ← byteCopyDD d m3 op2 (cpy - op2).toNat
        pure (StepRes.next false ⟨ip, cpy, d⟩)
    else do
      let d ← memcpyDD d m3 op2 8
      let d ← (if 16 < length then LZ4_wildCopy8DD d (m3 + 8) (op2 + 8) cpy else pure d)
      pure (StepRes.next false ⟨ip, cpy, d⟩)

/-- Label `_copy_match` (lz4.c:960-967): decode the match-length extension
if the nibble saturated, add MINMATCH, and fall into the match copy.
The length check at lz4.c:963 uses `iend - LASTLITERALS + 1`. -/
def copyMatchStage (src : Array Nat) (rawLen offset : Nat) (ip op : Int)
    (d : Array Nat) : M StepRes :=
  let n : Int := src.size
  if rawLen = 15 then do
    let r ← read_variable_length src ip (n - 5 + 1) true false
    if r.err ≠ .vlOk then .ok (output_error r.ip d)
    else if op + ((rawLen + r.add : Nat) : Int) < op then .ok (output_error r.ip d)
    else matchCopyStage (rawLen + r.add + 4) offset r.ip op d
  else matchCopyStage (rawLen + 4) offset ip op d

/-- Literal copy of the safe loop from label `safe_literal_copy`
(lz4.c:896-958): either the last-sequence branch (with the exact-input
check of lz4.c:936, `partialDecoding` disabled) ending the decode, or a
wild copy followed by the offset read and the match stages.
`oend-MFLIMIT = m-12`, `iend-(2+1+LASTLITERALS) = n-8`. -/
def litCopyStage (src : Array Nat) (token length : Nat) (ip op : Int)
    (d : Array Nat) : M StepRes :=
  let n : Int := src.size
  let m : Int := d.size
  let cpy : Int := op + (length : Int)
  if cpy > m - 12 ∨ ip + (length : Int) > n - 8 then
    if ip + (length : Int) ≠ n ∨ cpy > m then .ok (output_error ip d)
    else do
      let d ← memcpySD src d ip op length       -- memmove(op, ip, length), lz4.c:938
      pure (StepRes.stop cpy d)                 -- break; return (int)(op - dst)
  else do
    let d ← LZ4_wildCopy8SD src d ip op cpy
    let ip2 : Int := ip + (length : Int)
    let offset ← LZ4_readLE16 src ip2
    copyMatchStage src (token % 16) offset (ip2 + 2) cpy d

/-- One iteration of the safe ("Main") loop (lz4.c:839-896): token read,
the two-stage shortcut, the literal-length extension, then the literal
copy stage.  `shortiend = iend-16`, `shortoend = oend-32`. -/
def safeStep (src : Array Nat) (s : S) : M StepRes := do
  let n : Int := src.size
  let m : Int := s.dst.size
  let token ← rdSrc src s.ip
  let ip : Int := s.ip + 1
  let length : Nat := token / 16
  if length ≠ 15 ∧ ip < n - 16 ∧ s.op ≤ m - 32 then do
    let d ← memcpySD src s.dst ip s.op 16
    let op : Int := s.op + (length : Int)
    let ip2 : Int := ip + (length : Int)
    let mlen : Nat := token % 16
    let offset ← LZ4_readLE16 src ip2
    let ip3 : Int := ip2 + 2
    let matc : Int := op - (offset : Int)
    if mlen ≠ 15 ∧ 8 ≤ offset ∧ 0 ≤ matc then do
      let d ← memcpyDD d matc op 8
      let d ← memcpyDD d (matc + 8) (op + 8) 8
      let d ← memcpyDD d (matc + 16) (op + 16) 2
      pure (StepRes.next false ⟨ip3, op + (mlen : Int) + 4, d⟩)
    else
      copyMatchStage src mlen offset ip3 op d
  else if length = 15 then do
    let r ← read_variable_length src ip (n - 15) true true
    if r.err = .initial then .ok (output_error r.ip s.dst)
    else if s.op + ((length + r.add : Nat) : Int) < s.op then .ok (output_error r.ip s.dst)
    else if r.ip + ((length + r.add : Nat) : Int) < r.ip then .ok (output_error r.ip s.dst)
    else litCopyStage src token (length + r.add) r.ip s.op s.dst
  else
    litCopyStage src token length ip s.op s.dst

/-- Tail of a fast-loop iteration after fully copying literals
(lz4.c:754-833, minus the parts reached by `goto`): offset read, match
length (with extension), and the within-block match copy; `noDict`
specialisation as in `matchCopyStage`. -/
def fastMatchEnd (length offset : Nat) (ip op : Int) (d : Array Nat) : M StepRes :=
  let matc : Int := op - (offset : Int)
  if matc + 0 < 0 then .ok (output_error ip d)        -- checkOffset, lz4.c:792
  else do
    let cpy : Int := op + (length : Int)
    let d ← (if offset < 16 then LZ4_memcpy_using_offset d op matc cpy offset
             else LZ4_wildCopy32DD d matc op cpy)
    pure (StepRes.next true ⟨ip, cpy, d⟩)

/-- Offset/match-length part of a fast-loop iteration (lz4.c:754-792):
reads the offset, decodes the match length, and dispatches to
`safe_match_copy` (when within `FASTLOOP_SAFE_DISTANCE = 64` of the output
end), the no-overlap fastpath, or the generic fast match copy. -/
def fastMid (src : Array Nat) (token : Nat) (ip0 op : Int) (d : Array Nat) : M StepRes := do
  let n : Int := src.size
  let m : Int := d.size
  let offset ← LZ4_readLE16 src ip0
  let ip : Int := ip0 + 2
  let matc : Int := op - (offset : Int)
  let mlen : Nat := token % 16
  if mlen = 15 then
    if matc + 0 < 0 then .ok (output_error ip d)      -- checkOffset, lz4.c:764
    else do
      let r ← read_variable_length src ip (n - 5 + 1) true false
      if r.err ≠ .vlOk then .ok (output_error r.ip d)
      else if op + ((mlen + r.add : Nat) : Int) < op then .ok (output_error r.ip d)
      else
        let length : Nat := mlen + r.add + 4
        if op + (length : Int) ≥ m - 64 then matchCopyStage length offset r.ip op d
        else fastMatchEnd length offset r.ip op d
  else
    let length : Nat := mlen + 4
    if op + (length : Int) ≥ m - 64 then matchCopyStage length offset ip op d
    else if 0 ≤ matc ∧ 8 ≤ offset then do     -- fastpath, lz4.c:779-790
      let d ← memcpyDD d matc op 8
      let d ← memcpyDD d (matc + 8) (op + 8) 8
      let d ← memcpyDD d (matc + 16) (op + 16) 2
      pure (StepRes.next true ⟨ip, op + (length : Int), d⟩)
    else fastMatchEnd length offset ip op d

/-- One iteration of the fast loop (lz4.c:708-834): token, literal length
(with extension), 32-byte wild literal copy (or 16-byte speculative copy
for short literals), deferring to the safe loop's literal stage when a
bound is approached. -/
def fastStep (src : Array Nat) (s : S) : M StepRes := do
  let n : Int := src.size
  let m : Int := s.dst.size
  let token ← rdSrc src s.ip
  let ip : Int := s.ip + 1
  let litlen : Nat := token / 16
  if litlen = 15 then do
    let r ← read_variable_length src ip (n - 15) true true
    if r.err = .initial then .ok (output_error r.ip s.dst)
    else if s.op + ((litlen + r.add : Nat) : Int) < s.op then .ok (output_error r.ip s.dst)
    else if r.ip + ((litlen + r.add : Nat) : Int) < r.ip then .ok (output_error r.ip s.dst)
    else
      let length : Nat := litlen + r.add
      let cpy : Int := s.op + (length : Int)
      if cpy > m - 32 ∨ r.ip + (length : Int) > n - 32 then
        litCopyStage src token length r.ip s.op s.dst   -- goto safe_literal_copy
      else do
        let d ← LZ4_wildCopy32SD src s.dst r.ip s.op cpy
        fastMid src token (r.ip + (length : Int)) cpy d
  else
    let cpy : Int := s.op + (litlen : Int)
    if ip > n - 17 then
      litCopyStage src token litlen ip s.op s.dst       -- goto safe_literal_copy
    else do
      let d ← memcpySD src s.dst ip s.op 16             -- lz4.c:744
      fastMid src token (ip + (litlen : Int)) cpy d

/-- The loop driver: run complete iterations until the decode returns.
The fuel is `srcSize + 1` at the entry point; every iteration consumes at
least the token byte, so the fuel is never exhausted (see the C8 theorem). -/
def runLoop (src : Array Nat) : Nat → Bool → S → M (Int × Array Nat)
  | 0, _, _ => .error .fuel
  | fuel + 1, fast, s => do
    let r ← (if fast then fastStep src s else safeStep src s)
    match r with
    | .next fast2 s2 => runLoop src fuel fast2 s2
    | .stop ret d => pure (ret, d)

/-- Model of `LZ4_decompress_generic` (lz4.c:648-1063) at the `LZ4_decompress_safe`
instantiation; `fastDecLoop` reflects the compile-time `LZ4_FAST_DEC_LOOP`
switch (lz4.c:354-365).  The source buffer spans exactly `compressedSize`
bytes and the destination exactly `dstCapacity` bytes; `none` models a
NULL source pointer. -/
def LZ4_decompress_generic (srcO : Option (Array Nat)) (dst0 : Array Nat)
    (fastDecLoop : Bool) : M (Int × Array Nat) :=
  match srcO with
  | none => .ok (-1, dst0)                              -- lz4.c:663
  | some src =>
    let n : Int := src.size
    let m : Int := dst0.size
    if m = 0 then
      (if n = 1 then do                                 -- lz4.c:692-696
        let b ← rdSrc src 0
        pure ((if b = 0 then (0 : Int) else -1), dst0)
       else .ok (-1, dst0))
    else if n = 0 then .ok (-1, dst0)                   -- lz4.c:698
    else
      runLoop src (src.size + 1) (fastDecLoop ∧ 64 ≤ m) ⟨0, 0, dst0⟩

/-- Model of `LZ4_decompress_safe` (lz4.c:1065-1071). -/
def LZ4_decompress_safe (srcO : Option (Array Nat)) (dst0 : Array Nat)
    (fastDecLoop : Bool) : M (Int × Array Nat) :=
  LZ4_decompress_generic srcO dst0 fastDecLoop

/-- The return value of a decode, when it returned. -/
def decRet (x : M (Int × Array Nat)) : Option Int :=
  match x with
  | .ok (r, _) => some r
  | .error _ => none

/-- Model of `LZ4_COMPRESSBOUND` (lz4.h:144): `(unsigned)(isize) > (unsigned)LZ4_MAX_INPUT_SIZE
? 0 : (isize) + ((isize)/255) + 16`, with `LZ4_MAX_INPUT_SIZE = 0x7E000000`;
the unsigned cast of the 32-bit `int` argument is `% 2^32`.  The division
branch is only reached for `0 ≤ isize ≤ LZ4_MAX_INPUT_SIZE`, where `/`
agrees with C's truncating division. -/
def LZ4_COMPRESSBOUND (isize : Int) : Int :=
  if isize % 4294967296 > 2113929216 then 0 else isize + isize / 255 + 16

/-- Model of `LZ4_compressBound` (lz4.c:583). -/
def LZ4_compressBound (isize : Int) : Int := LZ4_COMPRESSBOUND isize

/-! ### In-bounds lemmas for the memory primitives

Each lemma states that, under the cursor bounds the decoder's checks
establish, a primitive returns `.ok` and preserves the buffer size. -/

theorem rdSrc_ok {src : Array Nat} {i : Int} (h0 : 0 ≤ i) (h1 : i < (src.size : Int)) :
    rdSrc src i = .ok (src.getD i.toNat 0) := by
  simp [rdSrc, h0, h1]

theorem rdDst_ok {d : Array Nat} {i : Int} (h0 : 0 ≤ i) (h1 : i < (d.size : Int)) :
    rdDst d i = .ok (d.getD i.toNat 0) := by
  simp [rdDst, h0, h1]

theorem wrDst_ok {d : Array Nat} {i : Int} {v : Nat} (h0 : 0 ≤ i)
    (h1 : i < (d.size : Int)) :
    ∃ d', wrDst d i v = .ok d' ∧ d'.size = d.size := by
  refine ⟨d.set! i.toNat v, ?_, by simp⟩
  simp [wrDst, h0, h1]

theorem rdSrcN_ok {src : Array Nat} :
    ∀ (k : Nat) (i : Int), 0 ≤ i → i + k ≤ (src.size : Int) →
      ∃ bs, rdSrcN src i k = .ok bs ∧ bs.length = k := by
  intro k
  induction k with
  | zero => intro i _ _; exact ⟨[], rfl, rfl⟩
  | succ k ih =>
    intro i h0 h1
    push_cast at h1
    have hb : rdSrc src i = .ok (src.getD i.toNat 0) := rdSrc_ok h0 (by omega)
    obtain ⟨bs, hbs, hlen⟩ := ih (i + 1) (by omega) (by omega)
    refine ⟨src.getD i.toNat 0 :: bs, ?_, by simp [hlen]⟩
    simp [rdSrcN, hb, hbs, bind, Except.bind, pure, Except.pure]

theorem rdDstN_ok {d : Array Nat} :
    ∀ (k : Nat) (i : Int), 0 ≤ i → i + k ≤ (d.size : Int) →
      ∃ bs, rdDstN d i k = .ok bs ∧ bs.length = k := by
  intro k
  induction k with
  | zero => intro i _ _; exact ⟨[], rfl, rfl⟩
  | succ k ih =>
    intro i h0 h1
    push_cast at h1
    have hb : rdDst d i = .ok (d.getD i.toNat 0) := rdDst_ok h0 (by omega)
    obtain ⟨bs, hbs, hlen⟩ := ih (i + 1) (by omega) (by omega)
    refine ⟨d.getD i.toNat 0 :: bs, ?_, by simp [hlen]⟩
    simp [rdDstN, hb, hbs, bind, Except.bind, pure, Except.pure]

theorem wrDstList_ok :
    ∀ (bs : List Nat) (d : Array Nat) (i : Int), 0 ≤ i →
      i + bs.length ≤ (d.size : Int) →
      ∃ d', wrDstList d i bs = .ok d' ∧ d'.size = d.size := by
  intro bs
  induction bs with
  | nil => intro d i _ _; exact ⟨d, rfl, rfl⟩
  | cons b bs ih =>
    intro d i h0 h1
    simp only [List.length_cons] at h1
    push_cast at h1
    obtain ⟨d1, hd1, hs1⟩ := wrDst_ok (d := d) (i := i) (v := b) h0 (by omega)
    obtain ⟨d2, hd2, hs2⟩ := ih d1 (i + 1) (by omega) (by rw [hs1]; omega)
    exact ⟨d2, by simp [wrDstList, hd1, hd2, bind, Except.bind], by omega⟩

theorem memcpySD_ok {src d : Array Nat} {si di : Int} {k : Nat}
    (hs0 : 0 ≤ si) (hs1 : si + k ≤ (src.size : Int))
    (hd0 : 0 ≤ di) (hd1 : di + k ≤ (d.size : Int)) :
    ∃ d', memcpySD src d si di k = .ok d' ∧ d'.size = d.size := by
  obtain ⟨bs, hbs, hlen⟩ := @rdSrcN_ok src k si hs0 hs1
  obtain ⟨d', hd', hsz⟩ := wrDstList_ok bs d di hd0 (by rw [hlen]; exact hd1)
  exact ⟨d', by simp [memcpySD, hbs, hd', bind, Except.bind], hsz⟩

theorem memcpyDD_ok {d : Array Nat} {si di : Int} {k : Nat}
    (hs0 : 0 ≤ si) (hs1 : si + k ≤ (d.size : Int))
    (hd0 : 0 ≤ di) (hd1 : di + k ≤ (d.size : Int)) :
    ∃ d', memcpyDD d si di k = .ok d' ∧ d'.size = d.size := by
  obtain ⟨bs, hbs, hlen⟩ := rdDstN_ok (d := d) k si hs0 hs1
  obtain ⟨d', hd', hsz⟩ := wrDstList_ok bs d di hd0 (by rw [hlen]; exact hd1)
  exact ⟨d', by simp [memcpyDD, hbs, hd', bind, Except.bind], hsz⟩

theorem byteCopyDD_ok :
    ∀ (k : Nat) (d : Array Nat) (si di : Int), 0 ≤ si → si + k ≤ (d.size : Int) →
      0 ≤ di → di + k ≤ (d.size : Int) →
      ∃ d', byteCopyDD d si di k = .ok d' ∧ d'.size = d.size := by
  intro k
  induction k with
  | zero => intro d si di _ _ _ _; exact ⟨d, rfl, rfl⟩
  | succ k ih =>
    intro d si di hs0 hs1 hd0 hd1
    push_cast at hs1 hd1
    have hb : rdDst d si = .ok (d.getD si.toNat 0) := rdDst_ok hs0 (by omega)
    obtain ⟨d1, hd1', hsz1⟩ := wrDst_ok (d := d) (i := di) (v := d.getD si.toNat 0) hd0
      (by omega)
    obtain ⟨d2, hd2, hsz2⟩ := ih d1 (si + 1) (di + 1) (by omega) (by rw [hsz1]; omega)
      (by omega) (by rw [hsz1]; omega)
    exact ⟨d2, by simp only [byteCopyDD, hb, hd1', hd2, bind, Except.bind], by omega⟩

theorem wrDst32zero_ok {d : Array Nat} {i : Int} (h0 : 0 ≤ i)
    (h1 : i + 4 ≤ (d.size : Int)) :
    ∃ d', wrDst32zero d i = .ok d' ∧ d'.size = d.size := by
  obtain ⟨d', hd', hsz⟩ := wrDstList_ok [0, 0, 0, 0] d i h0 (by simpa using h1)
  exact ⟨d', hd', hsz⟩

theorem LZ4_readLE16_ok {src : Array Nat} {i : Int} (h0 : 0 ≤ i)
    (h1 : i + 2 ≤ (src.size : Int)) :
    ∃ v, LZ4_readLE16 src i = .ok v := by
  have hb0 : rdSrc src i = .ok (src.getD i.toNat 0) := rdSrc_ok h0 (by omega)
  have hb1 : rdSrc src (i + 1) = .ok (src.getD (i + 1).toNat 0) :=
    rdSrc_ok (by omega) (by omega)
  exact ⟨src.getD i.toNat 0 + 256 * src.getD (i + 1).toNat 0,
    by simp only [LZ4_readLE16, hb0, hb1, bind, Except.bind, pure, Except.pure]⟩

theorem wildCopy8SDGo_ok {src : Array Nat} :
    ∀ (c : Nat) (d : Array Nat) (si di : Int), 0 ≤ si → si + 8 * c ≤ (src.size : Int) →
      0 ≤ di → di + 8 * c ≤ (d.size : Int) →
      ∃ d', wildCopy8SDGo src d si di c = .ok d' ∧ d'.size = d.size := by
  intro c
  induction c with
  | zero => intro d si di _ _ _ _; exact ⟨d, rfl, rfl⟩
  | succ c ih =>
    intro d si di hs0 hs1 hd0 hd1
    obtain ⟨d1, hd1', hsz1⟩ := @memcpySD_ok src d si di 8
      hs0 (by push_cast at hs1 ⊢; omega) hd0 (by push_cast at hd1 ⊢; omega)
    obtain ⟨d2, hd2, hsz2⟩ := ih d1 (si + 8) (di + 8) (by omega)
      (by push_cast at hs1 ⊢; omega) (by omega) (by rw [hsz1]; push_cast at hd1 ⊢; omega)
    exact ⟨d2, by simp [wildCopy8SDGo, hd1', hd2, bind, Except.bind], by omega⟩

theorem wildCopy8DDGo_ok :
    ∀ (c : Nat) (d : Array Nat) (si di : Int), 0 ≤ si → si + 8 * c ≤ (d.size : Int) →
      0 ≤ di → di + 8 * c ≤ (d.size : Int) →
      ∃ d', wildCopy8DDGo d si di c = .ok d' ∧ d'.size = d.size := by
  intro c
  induction c with
  | zero => intro d si di _ _ _ _; exact ⟨d, rfl, rfl⟩
  | succ c ih =>
    intro d si di hs0 hs1 hd0 hd1
    obtain ⟨d1, hd1', hsz1⟩ := @memcpyDD_ok d si di 8
      hs0 (by push_cast at hs1 ⊢; omega) hd0 (by push_cast at hd1 ⊢; omega)
    obtain ⟨d2, hd2, hsz2⟩ := ih d1 (si + 8) (di + 8) (by omega)
      (by rw [hsz1]; push_cast at hs1 ⊢; omega) (by omega)
      (by rw [hsz1]; push_cast at hd1 ⊢; omega)
    exact ⟨d2, by simp [wildCopy8DDGo, hd1', hd2, bind, Except.bind], by omega⟩

theorem wildCopy32SDGo_ok {src : Array Nat} :
    ∀ (c : Nat) (d : Array Nat) (si di : Int), 0 ≤ si → si + 32 * c ≤ (src.size : Int) →
      0 ≤ di → di + 32 * c ≤ (d.size : Int) →
      ∃ d', wildCopy32SDGo src d si di c = .ok d' ∧ d'.size = d.size := by
  intro c
  induction c with
  | zero => intro d si di _ _ _ _; exact ⟨d, rfl, rfl⟩
  | succ c ih =>
    intro d si di hs0 hs1 hd0 hd1
    obtain ⟨d1, hd1', hsz1⟩ := @memcpySD_ok src d si di 32
      hs0 (by push_cast at hs1 ⊢; omega) hd0 (by push_cast at hd1 ⊢; omega)
    obtain ⟨d2, hd2, hsz2⟩ := ih d1 (si + 32) (di + 32) (by omega)
      (by push_cast at hs1 ⊢; omega) (by omega) (by rw [hsz1]; push_cast at hd1 ⊢; omega)
    exact ⟨d2, by simp [wildCopy32SDGo, hd1', hd2, bind, Except.bind], by omega⟩

theorem wildCopy32DDGo_ok :
    ∀ (c : Nat) (d : Array Nat) (si di : Int), 0 ≤ si → si + 32 * c ≤ (d.size : Int) →
      0 ≤ di → di + 32 * c ≤ (d.size : Int) →
      ∃ d', wildCopy32DDGo d si di c = .ok d' ∧ d'.size = d.size := by
  intro c
  induction c with
  | zero => intro d si di _ _ _ _; exact ⟨d, rfl, rfl⟩
  | succ c ih =>
    intro d si di hs0 hs1 hd0 hd1
    obtain ⟨d1, hd1', hsz1⟩ := @memcpyDD_ok d si di 16
      hs0 (by push_cast at hs1 ⊢; omega) hd0 (by push_cast at hd1 ⊢; omega)
    obtain ⟨d2, hd2, hsz2⟩ := @memcpyDD_ok d1 (si + 16) (di + 16) 16
      (by omega) (by rw [hsz1]; push_cast at hs1 ⊢; omega) (by omega)
      (by rw [hsz1]; push_cast at hd1 ⊢; omega)
    obtain ⟨d3, hd3, hsz3⟩ := ih d2 (si + 32) (di + 32) (by omega)
      (by rw [hsz2, hsz1]; push_cast at hs1 ⊢; omega) (by omega)
      (by rw [hsz2, hsz1]; push_cast at hd1 ⊢; omega)
    exact ⟨d3, by simp [wildCopy32DDGo, hd1', hd2, hd3, bind, Except.bind], by omega⟩

theorem chunks8_cases (di e : Int) :
    8 * ((chunks8 di e : Nat) : Int) ≤ 8 ∨ 8 * ((chunks8 di e : Nat) : Int) ≤ e - di + 7 := by
  rcases le_or_lt (e - di - 1) 0 with h | h
  · left; unfold chunks8; omega
  · right; unfold chunks8; omega

theorem chunks32_cases (di e : Int) :
    32 * ((chunks32 di e : Nat) : Int) ≤ 32 ∨
      32 * ((chunks32 di e : Nat) : Int) ≤ e - di + 31 := by
  rcases le_or_lt (e - di - 1) 0 with h | h
  · left; unfold chunks32; omega
  · right; unfold chunks32; omega

theorem whileChunks8_cases (di e : Int) :
    8 * ((whileChunks8 di e : Nat) : Int) ≤ 0 ∨
      8 * ((whileChunks8 di e : Nat) : Int) ≤ e - di + 7 := by
  rcases le_or_lt (e - di + 7) 0 with h | h
  · left; unfold whileChunks8; omega
  · right; unfold whileChunks8; omega

theorem LZ4_wildCopy8SD_ok {src d : Array Nat} {si di e : Int}
    (hs0 : 0 ≤ si) (hd0 : 0 ≤ di)
    (hs1 : si + 8 ≤ (src.size : Int)) (hs2 : si + (e - di) + 7 ≤ (src.size : Int))
    (hd1 : di + 8 ≤ (d.size : Int)) (hd2 : e + 7 ≤ (d.size : Int)) :
    ∃ d', LZ4_wildCopy8SD src d si di e = .ok d' ∧ d'.size = d.size := by
  have hc := chunks8_cases di e
  exact wildCopy8SDGo_ok (chunks8 di e) d si di hs0
    (by rcases hc with h | h <;> omega) hd0 (by rcases hc with h | h <;> omega)

theorem LZ4_wildCopy8DD_ok {d : Array Nat} {si di e : Int}
    (hs0 : 0 ≤ si) (hd0 : 0 ≤ di)
    (hs1 : si + 8 ≤ (d.size : Int)) (hs2 : si + (e - di) + 7 ≤ (d.size : Int))
    (hd1 : di + 8 ≤ (d.size : Int)) (hd2 : e + 7 ≤ (d.size : Int)) :
    ∃ d', LZ4_wildCopy8DD d si di e = .ok d' ∧ d'.size = d.size := by
  have hc := chunks8_cases di e
  exact wildCopy8DDGo_ok (chunks8 di e) d si di hs0
    (by rcases hc with h | h <;> omega) hd0 (by rcases hc with h | h <;> omega)

theorem LZ4_wildCopy32SD_ok {src d : Array Nat} {si di e : Int}
    (hs0 : 0 ≤ si) (hd0 : 0 ≤ di)
    (hs1 : si + 32 ≤ (src.size : Int)) (hs2 : si + (e - di) + 31 ≤ (src.size : Int))
    (hd1 : di + 32 ≤ (d.size : Int)) (hd2 : e + 31 ≤ (d.size : Int)) :
    ∃ d', LZ4_wildCopy32SD src d si di e = .ok d' ∧ d'.size = d.size := by
  have hc := chunks32_cases di e
  exact wildCopy32SDGo_ok (chunks32 di e) d si di hs0
    (by rcases hc with h | h <;> omega) hd0 (by rcases hc with h | h <;> omega)

theorem LZ4_wildCopy32DD_ok {d : Array Nat} {si di e : Int}
    (hs0 : 0 ≤ si) (hd0 : 0 ≤ di)
    (hs1 : si + 32 ≤ (d.size : Int)) (hs2 : si + (e - di) + 31 ≤ (d.size : Int))
    (hd1 : di + 32 ≤ (d.size : Int)) (hd2 : e + 31 ≤ (d.size : Int)) :
    ∃ d', LZ4_wildCopy32DD d si di e = .ok d' ∧ d'.size = d.size := by
  have hc := chunks32_cases di e
  exact wildCopy32DDGo_ok (chunks32 di e) d si di hs0
    (by rcases hc with h | h <;> omega) hd0 (by rcases hc with h | h <;> omega)

theorem patternWriteGo_ok {v : List Nat} (hv : v.length = 8) :
    ∀ (k : Nat) (d : Array Nat) (di : Int), 0 ≤ di → di + 8 * k ≤ (d.size : Int) →
      ∃ d', patternWriteGo d v di k = .ok d' ∧ d'.size = d.size := by
  intro k
  induction k with
  | zero => intro d di _ _; exact ⟨d, rfl, rfl⟩
  | succ k ih =>
    intro d di hd0 hd1
    obtain ⟨d1, hd1', hsz1⟩ := wrDstList_ok v d di hd0
      (by rw [hv]; push_cast at hd1 ⊢; omega)
    obtain ⟨d2, hd2, hsz2⟩ := ih d1 (di + 8) (by omega)
      (by rw [hsz1]; push_cast at hd1 ⊢; omega)
    exact ⟨d2, by simp [patternWriteGo, hd1', hd2, bind, Except.bind], by omega⟩

/-! ### `read_variable_length`: totality and cursor bounds -/

theorem readVarLenGo_ok {src : Array Nat} {lencheck : Int} :
    ∀ (fuel : Nat) (ip : Int) (acc : Nat), 0 ≤ ip → ip < (src.size : Int) →
      lencheck ≤ (src.size : Int) → (src.size : Int) < ip + fuel →
      ∃ r, readVarLenGo src lencheck true fuel ip acc = .ok r ∧
        ip < r.ip ∧ r.ip ≤ max (ip + 1) lencheck ∧ r.err ≠ .initial ∧
        (r.err = .vlOk → r.ip < lencheck) := by
  intro fuel
  induction fuel with
  | zero => intro ip acc _ h1 _ hf; push_cast at hf; omega
  | succ fuel ih =>
    intro ip acc h0 h1 hl hf
    push_cast at hf
    have hb : rdSrc src ip = .ok (src.getD ip.toNat 0) := rdSrc_ok h0 h1
    by_cases hstop : ip + 1 ≥ lencheck
    · refine ⟨⟨.loopErr, (acc + src.getD ip.toNat 0) % 4294967296, ip + 1⟩, ?_,
        show ip < ip + 1 by omega, show ip + 1 ≤ max (ip + 1) lencheck by omega,
        by simp, by simp⟩
      simp only [readVarLenGo, hb, bind, Except.bind]
      rw [if_pos (by simp [hstop])]
      rfl
    · by_cases h255 : src.getD ip.toNat 0 = 255
      · obtain ⟨r, hr, hr1, hr2, hr3, hr4⟩ :=
          ih (ip + 1) ((acc + src.getD ip.toNat 0) % 4294967296)
          (by omega) (by omega) hl (by omega)
        refine ⟨r, ?_, by omega, by omega, hr3, fun h => hr4 h⟩
        simp only [readVarLenGo, hb, bind, Except.bind]
        rw [if_neg (by simp [hstop]), if_pos h255]
        exact hr
      · refine ⟨⟨.vlOk, (acc + src.getD ip.toNat 0) % 4294967296, ip + 1⟩, ?_,
          show ip < ip + 1 by omega, show ip + 1 ≤ max (ip + 1) lencheck by omega,
          by simp, fun _ => show ip + 1 < lencheck by omega⟩
        simp only [readVarLenGo, hb, bind, Except.bind]
        rw [if_neg (by simp [hstop]), if_neg h255]
        rfl

/-- Totality of `read_variable_length` with both checks enabled (literal-length
extensions, `lencheck = iend - RUN_MASK`): total, and the returned cursor
never passes `lencheck`. -/
theorem read_variable_length_ok_init {src : Array Nat} {ip lencheck : Int}
    (h0 : 0 ≤ ip) (hl : lencheck ≤ (src.size : Int)) :
    ∃ r, read_variable_length src ip lencheck true true = .ok r ∧
      ip ≤ r.ip ∧ r.ip ≤ max ip lencheck ∧
      (r.err = .initial ↔ ip ≥ lencheck) ∧
      (r.err = .initial → r.ip = ip ∧ r.add = 0) ∧
      (r.err ≠ .initial → ip < r.ip) ∧
      (r.err = .vlOk → r.ip < lencheck) := by
  by_cases hinit : ip ≥ lencheck
  · refine ⟨⟨.initial, 0, ip⟩, ?_, le_refl _, show ip ≤ max ip lencheck by omega,
      by simp [hinit], by simp, by simp, by simp⟩
    simp [read_variable_length, hinit, pure, Except.pure]
  · obtain ⟨r, hr, hr1, hr2, hr3, hr4⟩ := readVarLenGo_ok (src.size + 1) ip 0 h0
      (by omega) hl (by push_cast; omega)
    refine ⟨r, ?_, by omega, by omega, by simp [hr3, hinit], by simp [hr3],
      fun _ => hr1, hr4⟩
    simp only [read_variable_length]
    simp [hinit, hr]

/-- Totality of `read_variable_length` with only the in-loop check enabled
(match-length extensions, `lencheck = iend - LASTLITERALS + 1`). -/
theorem read_variable_length_ok_noinit {src : Array Nat} {ip lencheck : Int}
    (h0 : 0 ≤ ip) (h1 : ip < (src.size : Int)) (hl : lencheck ≤ (src.size : Int)) :
    ∃ r, read_variable_length src ip lencheck true false = .ok r ∧
      ip < r.ip ∧ r.ip ≤ max (ip + 1) lencheck ∧ r.err ≠ .initial ∧
      (r.err = .vlOk → r.ip < lencheck) := by
  obtain ⟨r, hr, hr1, hr2, hr3, hr4⟩ := readVarLenGo_ok (src.size + 1) ip 0 h0 h1 hl
    (by push_cast; omega)
  exact ⟨r, by simp [read_variable_length, hr], hr1, hr2, hr3, hr4⟩

/-! ### Offset-table facts and the match-copy helpers -/

theorem inc_dec_facts (o : Nat) (h : o < 8) :
    (inc32table o : Int) ≤ 4 ∧ 0 ≤ (inc32table o : Int) - dec64table o ∧
      (inc32table o : Int) - dec64table o ≤ (o : Int) := by
  interval_cases o <;> decide

theorem matchCopyHead_ok {d : Array Nat} {matc op : Int} {offset : Nat}
    (hmc : matc = op - (offset : Int)) (hm0 : 0 ≤ matc)
    (hop8 : op + 8 ≤ (d.size : Int)) :
    ∃ d' m3, matchCopyHead d matc op offset = .ok (d', m3) ∧ d'.size = d.size ∧
      0 ≤ m3 ∧ m3 ≤ op := by
  have hop : 0 ≤ op := by omega
  by_cases ho : offset < 8
  · obtain ⟨hi1, hi2, hi3⟩ := inc_dec_facts offset ho
    obtain ⟨d1, hd1, hs1⟩ := wrDst32zero_ok (d := d) (i := op) hop (by omega)
    obtain ⟨d2, hd2, hs2⟩ := byteCopyDD_ok 4 d1 matc op hm0
      (by rw [hs1]; push_cast; omega) hop (by rw [hs1]; push_cast; omega)
    obtain ⟨d3, hd3, hs3⟩ := @memcpyDD_ok d2 (matc + (inc32table offset : Int))
      (op + 4) 4 (by omega) (by rw [hs2, hs1]; push_cast; omega)
      (by omega) (by rw [hs2, hs1]; push_cast; omega)
    refine ⟨d3, matc + (inc32table offset : Int) - dec64table offset, ?_, by omega,
      by omega, by omega⟩
    simp only [matchCopyHead, if_pos ho, hd1, hd2, hd3, bind, Except.bind, pure, Except.pure]
  · obtain ⟨d1, hd1, hs1⟩ := @memcpyDD_ok d matc op 8
      hm0 (by push_cast; omega) hop (by push_cast; omega)
    refine ⟨d1, matc + 8, ?_, hs1, by omega, by omega⟩
    simp only [matchCopyHead, if_neg ho, hd1, bind, Except.bind, pure, Except.pure]

theorem LZ4_memcpy_using_offset_base_ok {d : Array Nat} {dp sp ep : Int} {offset : Nat}
    (hsp : sp = dp - (offset : Int)) (hs0 : 0 ≤ sp)
    (_hep : dp + 4 ≤ ep) (hd16 : dp + 16 ≤ (d.size : Int)) (hep7 : ep + 7 ≤ (d.size : Int)) :
    ∃ d', LZ4_memcpy_using_offset_base d dp sp ep offset = .ok d' ∧ d'.size = d.size := by
  have hdp : 0 ≤ dp := by omega
  by_cases ho : offset < 8
  · obtain ⟨hi1, hi2, hi3⟩ := inc_dec_facts offset ho
    obtain ⟨d1, hd1, hs1⟩ := byteCopyDD_ok 4 d sp dp hs0 (by push_cast; omega)
      hdp (by push_cast; omega)
    obtain ⟨d2, hd2, hs2⟩ := @memcpyDD_ok d1 (sp + (inc32table offset : Int))
      (dp + 4) 4 (by omega) (by rw [hs1]; push_cast; omega)
      (by omega) (by rw [hs1]; push_cast; omega)
    obtain ⟨d3, hd3, hs3⟩ := @LZ4_wildCopy8DD_ok
      d2 (sp + (inc32table offset : Int) - dec64table offset)
      (dp + 8) ep (by omega) (by omega)
      (by rw [hs2, hs1]; omega) (by rw [hs2, hs1]; omega)
      (by rw [hs2, hs1]; omega) (by rw [hs2, hs1]; omega)
    refine ⟨d3, ?_, by omega⟩
    simp only [LZ4_memcpy_using_offset_base, if_pos ho, hd1, hd2, hd3, bind, Except.bind]
  · have ho8 : (8 : Int) ≤ (offset : Int) := by push_cast at ho ⊢; omega
    obtain ⟨d1, hd1, hs1⟩ := @memcpyDD_ok d sp dp 8
      hs0 (by push_cast; omega) hdp (by push_cast; omega)
    obtain ⟨d2, hd2, hs2⟩ := @LZ4_wildCopy8DD_ok d1 (sp + 8)
      (dp + 8) ep (by omega) (by omega)
      (by rw [hs1]; omega) (by rw [hs1]; omega) (by rw [hs1]; omega) (by rw [hs1]; omega)
    refine ⟨d2, ?_, by omega⟩
    simp only [LZ4_memcpy_using_offset_base, if_neg ho, hd1, hd2, bind, Except.bind]

theorem LZ4_memcpy_using_offset_ok {d : Array Nat} {dp sp ep : Int} {offset : Nat}
    (hsp : sp = dp - (offset : Int)) (hs0 : 0 ≤ sp)
    (hep : dp + 4 ≤ ep) (hd16 : dp + 16 ≤ (d.size : Int)) (hep7 : ep + 7 ≤ (d.size : Int)) :
    ∃ d', LZ4_memcpy_using_offset d dp sp ep offset = .ok d' ∧ d'.size = d.size := by
  have hdp : 0 ≤ dp := by omega
  obtain ⟨d0, hd0, hs0'⟩ := wrDst32zero_ok (d := d) (i := dp) hdp (by omega)
  have hpat : ∀ (v : List Nat), v.length = 8 →
      ∃ d', patternWriteGo d0 v dp (1 + whileChunks8 (dp + 8) ep) = .ok d' ∧
        d'.size = d0.size := by
    intro v hv
    refine patternWriteGo_ok hv _ d0 dp hdp ?_
    have hw := whileChunks8_cases (dp + 8) ep
    rw [hs0']
    push_cast
    rcases hw with h | h <;> omega
  match hoff : offset with
  | 1 =>
    have hr : rdDst d0 sp = .ok (d0.getD sp.toNat 0) :=
      rdDst_ok hs0 (by rw [hs0']; omega)
    obtain ⟨d', hd', hsz⟩ := hpat
      [d0.getD sp.toNat 0, d0.getD sp.toNat 0, d0.getD sp.toNat 0, d0.getD sp.toNat 0,
       d0.getD sp.toNat 0, d0.getD sp.toNat 0, d0.getD sp.toNat 0, d0.getD sp.toNat 0]
      (by simp)
    refine ⟨d', ?_, by omega⟩
    simp only [LZ4_memcpy_using_offset, hd0, hr, bind, Except.bind, hd']
  | 2 =>
    have hr0 : rdDst d0 sp = .ok (d0.getD sp.toNat 0) :=
      rdDst_ok hs0 (by rw [hs0']; omega)
    have hr1 : rdDst d0 (sp + 1) = .ok (d0.getD (sp + 1).toNat 0) :=
      rdDst_ok (by omega) (by rw [hs0']; push_cast at hsp ⊢; omega)
    obtain ⟨d', hd', hsz⟩ := hpat
      [d0.getD sp.toNat 0, d0.getD (sp + 1).toNat 0, d0.getD sp.toNat 0,
       d0.getD (sp + 1).toNat 0, d0.getD sp.toNat 0, d0.getD (sp + 1).toNat 0,
       d0.getD sp.toNat 0, d0.getD (sp + 1).toNat 0] (by simp)
    refine ⟨d', ?_, by omega⟩
    simp only [LZ4_memcpy_using_offset, hd0, hr0, hr1, bind, Except.bind, hd']
  | 4 =>
    have hr0 : rdDst d0 sp = .ok (d0.getD sp.toNat 0) :=
      rdDst_ok hs0 (by rw [hs0']; omega)
    have hr1 : rdDst d0 (sp + 1) = .ok (d0.getD (sp + 1).toNat 0) :=
      rdDst_ok (by omega) (by rw [hs0']; push_cast at hsp ⊢; omega)
    have hr2 : rdDst d0 (sp + 2) = .ok (d0.getD (sp + 2).toNat 0) :=
      rdDst_ok (by omega) (by rw [hs0']; push_cast at hsp ⊢; omega)
    have hr3 : rdDst d0 (sp + 3) = .ok (d0.getD (sp + 3).toNat 0) :=
      rdDst_ok (by omega) (by rw [hs0']; push_cast at hsp ⊢; omega)
    obtain ⟨d', hd', hsz⟩ := hpat
      [d0.getD sp.toNat 0, d0.getD (sp + 1).toNat 0, d0.getD (sp + 2).toNat 0,
       d0.getD (sp + 3).toNat 0, d0.getD sp.toNat 0, d0.getD (sp + 1).toNat 0,
       d0.getD (sp + 2).toNat 0, d0.getD (sp + 3).toNat 0] (by simp)
    refine ⟨d', ?_, by omega⟩
    simp only [LZ4_memcpy_using_offset, hd0, hr0, hr1, hr2, hr3, bind, Except.bind, hd']
  | 0 =>
    obtain ⟨d', hd', hsz⟩ := @LZ4_memcpy_using_offset_base_ok d0
      dp sp ep 0 (by simpa using hsp) hs0 hep
      (by omega) (by omega)
    exact ⟨d', by simp only [LZ4_memcpy_using_offset, hd0, bind, Except.bind, hd'], by omega⟩
  | 3 =>
    obtain ⟨d', hd', hsz⟩ := @LZ4_memcpy_using_offset_base_ok d0
      dp sp ep 3 (by simpa using hsp) hs0 hep
      (by omega) (by omega)
    exact ⟨d', by simp only [LZ4_memcpy_using_offset, hd0, bind, Except.bind, hd'], by omega⟩
  | (k + 5) =>
    obtain ⟨d', hd', hsz⟩ := @LZ4_memcpy_using_offset_base_ok d0
      dp sp ep (k + 5) (by simpa using hsp) hs0 hep
      (by omega) (by omega)
    exact ⟨d', by simp only [LZ4_memcpy_using_offset, hd0, bind, Except.bind, hd'], by omega⟩

/-! ### Loop invariant and the stage lemmas -/

/-- All entries of the buffer are byte values.  This is the sole
assumption inherited from the C type `BYTE` (`uint8_t`). -/
def ByteArr (a : Array Nat) : Prop := ∀ i : Fin a.size, a.getD i.val 0 ≤ 255

instance (a : Array Nat) : Decidable (ByteArr a) := by
  unfold ByteArr; infer_instance

/-- The invariant at the top of a decode loop: cursors in range, the
buffer size unchanged, and (in the fast loop) at least
`FASTLOOP_SAFE_DISTANCE = 64` bytes of output headroom. -/
def InvS (src : Array Nat) (msize : Nat) (fast : Bool) (s : S) : Prop :=
  s.dst.size = msize ∧ 0 ≤ s.ip ∧ s.ip < (src.size : Int) ∧ 0 ≤ s.op ∧
    s.op ≤ (msize : Int) ∧ (fast = true → s.op + 64 ≤ (msize : Int))

instance (src : Array Nat) (msize : Nat) (fast : Bool) (s : S) :
    Decidable (InvS src msize fast s) := by
  unfold InvS; infer_instance

/-- A step result is good when a continuation re-establishes the loop
invariant with the input cursor at least at `ipMin`, and a return carries
a size-preserved buffer and either a negative (error) value or a byte
count within the capacity. -/
def GoodRes (src : Array Nat) (msize : Nat) (ipMin : Int) : StepRes → Prop
  | .next fast s => InvS src msize fast s ∧ ipMin ≤ s.ip
  | .stop ret d => d.size = msize ∧ (ret < 0 ∨ (0 ≤ ret ∧ ret ≤ (msize : Int)))

theorem GoodRes_mono {src : Array Nat} {msize : Nat} {a b : Int} (h : a ≤ b)
    {r : StepRes} (hr : GoodRes src msize b r) : GoodRes src msize a r := by
  cases r with
  | next fast s => exact ⟨hr.1, le_trans h hr.2⟩
  | stop ret d => exact hr

theorem byte_le {src : Array Nat} (hB : ByteArr src) {i : Int} (h0 : 0 ≤ i)
    (h1 : i < (src.size : Int)) : src.getD i.toNat 0 ≤ 255 :=
  hB ⟨i.toNat, by omega⟩

/-- Any `getD` of a byte array is a byte (out-of-range indices give the
default 0). -/
theorem getD_le_255 {src : Array Nat} (hB : ByteArr src) (t : Nat) :
    src.getD t 0 ≤ 255 := by
  by_cases h : t < src.size
  · exact hB ⟨t, h⟩
  · simp [Array.getD, h]

/-- A monadic step computation is in bounds and yields a good result. -/
def OkGood (src : Array Nat) (msize : Nat) (ipMin : Int) : M StepRes → Prop
  | .ok r => GoodRes src msize ipMin r
  | .error _ => False

theorem OkGood_elim {src : Array Nat} {msize : Nat} {ipMin : Int} {x : M StepRes}
    (h : OkGood src msize ipMin x) :
    ∃ r, x = .ok r ∧ GoodRes src msize ipMin r := by
  cases x with
  | ok r => exact ⟨r, rfl, h⟩
  | error e => exact absurd h (by simp [OkGood])

theorem OkGood_mono {src : Array Nat} {msize : Nat} {a b : Int} (h : a ≤ b)
    {x : M StepRes} (hx : OkGood src msize b x) : OkGood src msize a x := by
  cases x with
  | ok r => exact GoodRes_mono h hx
  | error e => exact hx

theorem okGood_next {src : Array Nat} {msize : Nat} {ipMin ip op : Int}
    {fast : Bool} {d : Array Nat} (h1 : d.size = msize) (h2 : 0 ≤ ip)
    (h3 : ip < (src.size : Int)) (h4 : 0 ≤ op) (h5 : op ≤ (msize : Int))
    (h6 : fast = true → op + 64 ≤ (msize : Int)) (h7 : ipMin ≤ ip) :
    OkGood src msize ipMin (pure (StepRes.next fast ⟨ip, op, d⟩)) :=
  ⟨⟨h1, h2, h3, h4, h5, h6⟩, h7⟩

theorem okGood_err {src : Array Nat} {msize : Nat} {ipMin ip : Int} {d : Array Nat}
    (h1 : d.size = msize) (h2 : 0 ≤ ip) :
    OkGood src msize ipMin (Except.ok (output_error ip d)) :=
  ⟨h1, Or.inl (by omega)⟩

theorem okGood_ret {src : Array Nat} {msize : Nat} {ipMin ret : Int} {d : Array Nat}
    (h1 : d.size = msize) (h2 : 0 ≤ ret) (h3 : ret ≤ (msize : Int)) :
    OkGood src msize ipMin (pure (StepRes.stop ret d)) :=
  ⟨h1, Or.inr ⟨h2, h3⟩⟩

theorem matchCopyStage_ok {src d : Array Nat} {length offset : Nat} {ip op : Int}
    (hip0 : 0 ≤ ip) (hipn : ip < (src.size : Int))
    (hop0 : 0 ≤ op) (hop : op + 12 ≤ (d.size : Int)) (hlen : 4 ≤ length) :
    OkGood src d.size ip (matchCopyStage length offset ip op d) := by
  simp only [matchCopyStage]
  split
  case isTrue hmc => exact okGood_err rfl hip0
  case isFalse hmc =>
    obtain ⟨d1, m3, hhd, hs1, hm30, hm3op⟩ :=
      @matchCopyHead_ok d (op - (offset : Int)) op
        offset rfl (by omega) (by omega)
    rw [hhd]
    simp only [bind, Except.bind]
    split
    case isTrue hnear =>
      split
      case isTrue hlast => exact okGood_err (by omega) hip0
      case isFalse hlast =>
        split
        case isTrue hlim =>
          obtain ⟨d2, hd2, hs2⟩ := @LZ4_wildCopy8DD_ok d1 m3
            (op + 8) ((d.size : Int) - 7) (by omega) (by omega)
            (by omega) (by omega) (by omega) (by omega)
          rw [hd2]
          simp only [bind, Except.bind]
          obtain ⟨d3, hd3, hs3⟩ := byteCopyDD_ok
            ((op + (length : Int) - ((d.size : Int) - 7)).toNat) d2
            (m3 + ((d.size : Int) - 7 - (op + 8))) ((d.size : Int) - 7)
            (by omega) (by omega) (by omega) (by omega)
          rw [hd3]
          simp only [bind, Except.bind]
          exact okGood_next (by omega) hip0 hipn (by omega) (by omega)
            (by simp) (le_refl _)
        case isFalse hlim =>
          obtain ⟨d2, hd2, hs2⟩ := byteCopyDD_ok
            ((op + (length : Int) - (op + 8)).toNat) d1 m3 (op + 8)
            (by omega) (by omega) (by omega) (by omega)
          rw [hd2]
          simp only [bind, Except.bind]
          exact okGood_next (by omega) hip0 hipn (by omega) (by omega)
            (by simp) (le_refl _)
    case isFalse hnear =>
      obtain ⟨d2, hd2, hs2⟩ := @memcpyDD_ok d1 m3 (op + 8) 8
        (by omega) (by omega) (by omega) (by omega)
      rw [hd2]
      simp only [bind, Except.bind]
      by_cases h16 : 16 < length
      · rw [if_pos h16]
        obtain ⟨d3, hd3, hs3⟩ := @LZ4_wildCopy8DD_ok d2 (m3 + 8)
          (op + 8 + 8) (op + (length : Int)) (by omega) (by omega)
          (by omega) (by omega) (by omega) (by omega)
        rw [hd3]
        simp only [bind, Except.bind]
        exact okGood_next (by omega) hip0 hipn (by omega) (by omega)
          (by simp) (le_refl _)
      · rw [if_neg h16]
        simp only [bind, Except.bind, pure, Except.pure]
        exact okGood_next (by omega) hip0 hipn (by omega) (by omega)
          (by simp) (le_refl _)

theorem copyMatchStage_ok {src d : Array Nat} {rawLen offset : Nat} {ip op : Int}
    (hip0 : 0 ≤ ip) (hipn : ip < (src.size : Int))
    (hop0 : 0 ≤ op) (hop : op + 12 ≤ (d.size : Int)) :
    OkGood src d.size ip (copyMatchStage src rawLen offset ip op d) := by
  simp only [copyMatchStage]
  by_cases hraw : rawLen = 15
  · rw [if_pos hraw]
    obtain ⟨r, hr, hr1, hr2, hr3, hr4⟩ := @read_variable_length_ok_noinit
      src ip ((src.size : Int) - 5 + 1) hip0 hipn (by omega)
    rw [hr]
    simp only [bind, Except.bind]
    by_cases herr : r.err ≠ VLErr.vlOk
    · rw [if_pos herr]
      exact okGood_err rfl (by omega)
    · rw [if_neg herr]
      have hvl : r.err = VLErr.vlOk := not_not.mp herr
      have hripn : r.ip < (src.size : Int) - 5 + 1 := hr4 hvl
      rw [if_neg (show ¬(op + ((rawLen + r.add : Nat) : Int) < op) by omega)]
      exact OkGood_mono (by omega)
        (matchCopyStage_ok (by omega) (by omega) hop0 hop (by omega))
  · rw [if_neg hraw]
    exact matchCopyStage_ok hip0 hipn hop0 hop (by omega)

theorem litCopyStage_ok {src d : Array Nat} {token length : Nat} {ip op : Int}
    (hip0 : 0 ≤ ip) (hop0 : 0 ≤ op) :
    OkGood src d.size ip (litCopyStage src token length ip op d) := by
  simp only [litCopyStage]
  by_cases hC : op + (length : Int) > (d.size : Int) - 12 ∨
      ip + (length : Int) > (src.size : Int) - 8
  · rw [if_pos hC]
    by_cases hE : ip + (length : Int) ≠ (src.size : Int) ∨
        op + (length : Int) > (d.size : Int)
    · rw [if_pos hE]
      exact okGood_err rfl hip0
    · rw [if_neg hE]
      push_neg at hE
      obtain ⟨d1, hd1, hs1⟩ := @memcpySD_ok src d ip op
        length hip0 (by omega) hop0 (by omega)
      rw [hd1]
      simp only [bind, Except.bind]
      exact okGood_ret hs1 (by omega) (by omega)
  · rw [if_neg hC]
    push_neg at hC
    obtain ⟨d1, hd1, hs1⟩ := @LZ4_wildCopy8SD_ok src d ip
      op (op + (length : Int)) hip0 hop0 (by omega) (by omega)
      (by omega) (by omega)
    rw [hd1]
    simp only [bind, Except.bind]
    obtain ⟨off, hoff⟩ := @LZ4_readLE16_ok src (ip + (length : Int))
      (by omega) (by omega)
    rw [hoff]
    simp only [bind, Except.bind]
    have h := @copyMatchStage_ok src d1 (token % 16)
      off (ip + (length : Int) + 2) (op + (length : Int))
      (by omega) (by omega) (by omega) (by omega)
    rw [hs1] at h
    exact OkGood_mono (by omega) h

theorem fastMatchEnd_ok {src d : Array Nat} {length offset : Nat} {ip op : Int}
    (hip0 : 0 ≤ ip) (hipn : ip < (src.size : Int)) (hop0 : 0 ≤ op) (hlen : 4 ≤ length)
    (hfar : op + (length : Int) < (d.size : Int) - 64) :
    OkGood src d.size ip (fastMatchEnd length offset ip op d) := by
  simp only [fastMatchEnd]
  by_cases hmc : op - (offset : Int) + 0 < 0
  · rw [if_pos hmc]
    exact okGood_err rfl hip0
  · rw [if_neg hmc]
    by_cases hofs : offset < 16
    · rw [if_pos hofs]
      obtain ⟨d1, hd1, hs1⟩ := @LZ4_memcpy_using_offset_ok d op
        (op - (offset : Int)) (op + (length : Int)) offset
        rfl (by omega) (by omega) (by omega) (by omega)
      rw [hd1]
      simp only [bind, Except.bind]
      exact okGood_next hs1 hip0 hipn (by omega) (by omega) (fun _ => by omega)
        (le_refl _)
    · rw [if_neg hofs]
      obtain ⟨d1, hd1, hs1⟩ := @LZ4_wildCopy32DD_ok d (op - (offset : Int))
        op (op + (length : Int)) (by omega) hop0
        (by omega) (by omega) (by omega) (by omega)
      rw [hd1]
      simp only [bind, Except.bind]
      exact okGood_next hs1 hip0 hipn (by omega) (by omega) (fun _ => by omega)
        (le_refl _)

theorem fastMid_ok {src d : Array Nat} {token : Nat} {ip0 op : Int}
    (h00 : 0 ≤ ip0) (h0n : ip0 + 2 < (src.size : Int))
    (hop0 : 0 ≤ op) (hopm : op + 32 ≤ (d.size : Int)) :
    OkGood src d.size ip0 (fastMid src token ip0 op d) := by
  simp only [fastMid]
  obtain ⟨off, hoff⟩ := @LZ4_readLE16_ok src ip0 h00 (by omega)
  rw [hoff]
  simp only [bind, Except.bind]
  by_cases hm15 : token % 16 = 15
  · rw [if_pos hm15]
    by_cases hmc : op - (off : Int) + 0 < 0
    · rw [if_pos hmc]
      exact okGood_err rfl (by omega)
    · rw [if_neg hmc]
      obtain ⟨r, hr, hr1, hr2, hr3, hr4⟩ := @read_variable_length_ok_noinit
        src (ip0 + 2) ((src.size : Int) - 5 + 1)
        (by omega) (by omega) (by omega)
      rw [hr]
      simp only [bind, Except.bind]
      by_cases herr : r.err ≠ VLErr.vlOk
      · rw [if_pos herr]
        exact okGood_err rfl (by omega)
      · rw [if_neg herr]
        have hvl : r.err = VLErr.vlOk := not_not.mp herr
        have hripn : r.ip < (src.size : Int) - 5 + 1 := hr4 hvl
        rw [if_neg (show ¬(op + ((token % 16 + r.add : Nat) : Int) < op) by omega)]
        by_cases hnear : op + ((token % 16 + r.add + 4 : Nat) : Int) ≥ (d.size : Int) - 64
        · rw [if_pos hnear]
          exact OkGood_mono (by omega)
            (matchCopyStage_ok (by omega) (by omega) hop0 (by omega) (by omega))
        · rw [if_neg hnear]
          exact OkGood_mono (by omega)
            (fastMatchEnd_ok (by omega) (by omega) hop0 (by omega) (by omega))
  · rw [if_neg hm15]
    by_cases hnear : op + ((token % 16 + 4 : Nat) : Int) ≥ (d.size : Int) - 64
    · rw [if_pos hnear]
      exact OkGood_mono (by omega)
        (matchCopyStage_ok (by omega) (by omega) hop0 (by omega) (by omega))
    · rw [if_neg hnear]
      by_cases hfp : 0 ≤ op - (off : Int) ∧ 8 ≤ off
      · rw [if_pos hfp]
        obtain ⟨hfp1, hfp2⟩ := hfp
        have hofl : (8 : Int) ≤ (off : Int) := by exact_mod_cast hfp2
        obtain ⟨d1, hd1, hs1⟩ := @memcpyDD_ok d (op - (off : Int))
          op 8 hfp1 (by omega) hop0 (by omega)
        rw [hd1]
        simp only [bind, Except.bind]
        obtain ⟨d2, hd2, hs2⟩ := @memcpyDD_ok d1 (op - (off : Int) + 8)
          (op + 8) 8 (by omega) (by omega) (by omega) (by omega)
        rw [hd2]
        simp only [bind, Except.bind]
        obtain ⟨d3, hd3, hs3⟩ := @memcpyDD_ok d2 (op - (off : Int) + 16)
          (op + 16) 2 (by omega) (by omega) (by omega) (by omega)
        rw [hd3]
        simp only [bind, Except.bind]
        exact okGood_next (by omega) (by omega) (by omega) (by omega) (by omega)
          (fun _ => by omega) (by omega)
      · rw [if_neg hfp]
        exact OkGood_mono (by omega)
          (fastMatchEnd_ok (by omega) (by omega) hop0 (by omega) (by omega))

theorem safeStep_ok {src : Array Nat} {s : S} (hB : ByteArr src)
    (h1 : 0 ≤ s.ip) (h2 : s.ip < (src.size : Int)) (h3 : 0 ≤ s.op)
    (_h4 : s.op ≤ (s.dst.size : Int)) :
    OkGood src s.dst.size (s.ip + 1) (safeStep src s) := by
  have hb : rdSrc src s.ip = .ok (src.getD s.ip.toNat 0) := rdSrc_ok h1 h2
  have htok : src.getD s.ip.toNat 0 ≤ 255 := byte_le hB h1 h2
  simp only [safeStep]
  rw [hb]
  simp only [bind, Except.bind]
  by_cases hsc : src.getD s.ip.toNat 0 / 16 ≠ 15 ∧
      s.ip + 1 < (src.size : Int) - 16 ∧ s.op ≤ (s.dst.size : Int) - 32
  · rw [if_pos hsc]
    obtain ⟨hsc1, hsc2, hsc3⟩ := hsc
    have hlit14 : src.getD s.ip.toNat 0 / 16 ≤ 14 := by omega
    obtain ⟨d1, hd1, hs1⟩ := @memcpySD_ok src s.dst (s.ip + 1)
      s.op 16 (by omega) (by omega) h3 (by omega)
    rw [hd1]
    simp only [bind, Except.bind]
    obtain ⟨off, hoff⟩ := @LZ4_readLE16_ok src
      (s.ip + 1 + ((src.getD s.ip.toNat 0 / 16 : Nat) : Int)) (by omega) (by omega)
    rw [hoff]
    simp only [bind, Except.bind]
    by_cases hsm : src.getD s.ip.toNat 0 % 16 ≠ 15 ∧ 8 ≤ off ∧
        0 ≤ s.op + ((src.getD s.ip.toNat 0 / 16 : Nat) : Int) - (off : Int)
    · rw [if_pos hsm]
      obtain ⟨hsm1, hsm2, hsm3⟩ := hsm
      have hofl : (8 : Int) ≤ (off : Int) := by exact_mod_cast hsm2
      have hmlen14 : src.getD s.ip.toNat 0 % 16 ≤ 14 := by omega
      obtain ⟨d2, hd2, hs2⟩ := @memcpyDD_ok d1
        (s.op + ((src.getD s.ip.toNat 0 / 16 : Nat) : Int) - (off : Int))
        (s.op + ((src.getD s.ip.toNat 0 / 16 : Nat) : Int)) 8
        hsm3 (by omega) (by omega) (by omega)
      rw [hd2]
      simp only [bind, Except.bind]
      obtain ⟨d3, hd3, hs3⟩ := @memcpyDD_ok d2
        (s.op + ((src.getD s.ip.toNat 0 / 16 : Nat) : Int) - (off : Int) + 8)
        (s.op + ((src.getD s.ip.toNat 0 / 16 : Nat) : Int) + 8) 8
        (by omega) (by omega) (by omega) (by omega)
      rw [hd3]
      simp only [bind, Except.bind]
      obtain ⟨d4, hd4, hs4⟩ := @memcpyDD_ok d3
        (s.op + ((src.getD s.ip.toNat 0 / 16 : Nat) : Int) - (off : Int) + 16)
        (s.op + ((src.getD s.ip.toNat 0 / 16 : Nat) : Int) + 16) 2
        (by omega) (by omega) (by omega) (by omega)
      rw [hd4]
      simp only [bind, Except.bind]
      exact okGood_next (by omega) (by omega) (by omega) (by omega) (by omega)
        (by simp) (by omega)
    · rw [if_neg hsm]
      have h := @copyMatchStage_ok src d1
        (src.getD s.ip.toNat 0 % 16) off
        (s.ip + 1 + ((src.getD s.ip.toNat 0 / 16 : Nat) : Int) + 2)
        (s.op + ((src.getD s.ip.toNat 0 / 16 : Nat) : Int))
        (by omega) (by omega) (by omega) (by omega)
      rw [hs1] at h
      exact OkGood_mono (by omega) h
  · rw [if_neg hsc]
    by_cases hlit : src.getD s.ip.toNat 0 / 16 = 15
    · rw [if_pos hlit]
      obtain ⟨r, hr, hr1, hr2, hr3, hr4, hr5, hr6⟩ := @read_variable_length_ok_init
        src (s.ip + 1) ((src.size : Int) - 15)
        (by omega) (by omega)
      rw [hr]
      simp only [bind, Except.bind]
      by_cases hinit : r.err = VLErr.initial
      · rw [if_pos hinit]
        exact okGood_err rfl (by omega)
      · rw [if_neg hinit]
        rw [if_neg (show ¬(s.op + ((src.getD s.ip.toNat 0 / 16 + r.add : Nat) : Int) < s.op)
          by omega)]
        rw [if_neg (show ¬(r.ip + ((src.getD s.ip.toNat 0 / 16 + r.add : Nat) : Int) < r.ip)
          by omega)]
        exact OkGood_mono (hr5 hinit).le
          (@litCopyStage_ok src _ (src.getD s.ip.toNat 0)
            (src.getD s.ip.toNat 0 / 16 + r.add) _ _ (by omega) h3)
    · rw [if_neg hlit]
      exact litCopyStage_ok (by omega) h3

theorem fastStep_ok {src : Array Nat} {s : S} (hB : ByteArr src)
    (h1 : 0 ≤ s.ip) (h2 : s.ip < (src.size : Int)) (h3 : 0 ≤ s.op)
    (h4 : s.op + 64 ≤ (s.dst.size : Int)) :
    OkGood src s.dst.size (s.ip + 1) (fastStep src s) := by
  have hb : rdSrc src s.ip = .ok (src.getD s.ip.toNat 0) := rdSrc_ok h1 h2
  have htok : src.getD s.ip.toNat 0 ≤ 255 := byte_le hB h1 h2
  simp only [fastStep]
  rw [hb]
  simp only [bind, Except.bind]
  by_cases hlit : src.getD s.ip.toNat 0 / 16 = 15
  · rw [if_pos hlit]
    obtain ⟨r, hr, hr1, hr2, hr3, hr4, hr5, hr6⟩ := @read_variable_length_ok_init
      src (s.ip + 1) ((src.size : Int) - 15)
      (by omega) (by omega)
    rw [hr]
    simp only [bind, Except.bind]
    by_cases hinit : r.err = VLErr.initial
    · rw [if_pos hinit]
      exact okGood_err rfl (by omega)
    · rw [if_neg hinit]
      rw [if_neg (show ¬(s.op + ((src.getD s.ip.toNat 0 / 16 + r.add : Nat) : Int) < s.op)
        by omega)]
      rw [if_neg (show ¬(r.ip + ((src.getD s.ip.toNat 0 / 16 + r.add : Nat) : Int) < r.ip)
        by omega)]
      by_cases hgoto : s.op + ((src.getD s.ip.toNat 0 / 16 + r.add : Nat) : Int) >
          (s.dst.size : Int) - 32 ∨
          r.ip + ((src.getD s.ip.toNat 0 / 16 + r.add : Nat) : Int) > (src.size : Int) - 32
      · rw [if_pos hgoto]
        exact OkGood_mono (hr5 hinit).le
          (@litCopyStage_ok src _ (src.getD s.ip.toNat 0)
            (src.getD s.ip.toNat 0 / 16 + r.add) _ _ (by omega) h3)
      · rw [if_neg hgoto]
        push_neg at hgoto
        obtain ⟨d1, hd1, hs1⟩ := @LZ4_wildCopy32SD_ok src s.dst
          r.ip s.op
          (s.op + ((src.getD s.ip.toNat 0 / 16 + r.add : Nat) : Int))
          (by omega) h3 (by omega) (by omega) (by omega) (by omega)
        rw [hd1]
        simp only [bind, Except.bind]
        have h := @fastMid_ok src d1 (src.getD s.ip.toNat 0)
          (r.ip + ((src.getD s.ip.toNat 0 / 16 + r.add : Nat) : Int))
          (s.op + ((src.getD s.ip.toNat 0 / 16 + r.add : Nat) : Int))
          (by omega) (by omega) (by omega) (by omega)
        rw [hs1] at h
        exact OkGood_mono (by omega) h
  · rw [if_neg hlit]
    have hlit14 : src.getD s.ip.toNat 0 / 16 ≤ 14 := by omega
    by_cases hgoto : s.ip + 1 > (src.size : Int) - 17
    · rw [if_pos hgoto]
      exact litCopyStage_ok (by omega) h3
    · rw [if_neg hgoto]
      obtain ⟨d1, hd1, hs1⟩ := @memcpySD_ok src s.dst (s.ip + 1)
        s.op 16 (by omega) (by omega) h3 (by omega)
      rw [hd1]
      simp only [bind, Except.bind]
      have h := @fastMid_ok src d1 (src.getD s.ip.toNat 0)
        (s.ip + 1 + ((src.getD s.ip.toNat 0 / 16 : Nat) : Int))
        (s.op + ((src.getD s.ip.toNat 0 / 16 : Nat) : Int))
        (by omega) (by omega) (by omega) (by omega)
      rw [hs1] at h
      exact OkGood_mono (by omega) h

/-- The final result of a decode call is in bounds: a size-preserved
buffer and either an error sentinel (negative) or a byte count within the
declared capacity. -/
def OkRun (msize : Nat) : M (Int × Array Nat) → Prop
  | .ok (ret, d) => d.size = msize ∧ (ret < 0 ∨ (0 ≤ ret ∧ ret ≤ (msize : Int)))
  | .error _ => False

theorem runLoop_ok {src : Array Nat} {msize : Nat} (hB : ByteArr src) :
    ∀ (fuel : Nat) (fast : Bool) (s : S), InvS src msize fast s →
      (src.size : Int) < s.ip + fuel →
      OkRun msize (runLoop src fuel fast s) := by
  intro fuel
  induction fuel with
  | zero =>
    intro fast s hInv hf
    exact absurd hf (by obtain ⟨_, _, hipn, _⟩ := hInv; push_cast; omega)
  | succ fuel ih =>
    intro fast s hInv hf
    obtain ⟨hsz, hip0, hipn, hop0, hopm, hfast⟩ := hInv
    simp only [runLoop]
    have hstep : OkGood src msize (s.ip + 1)
        (if fast then fastStep src s else safeStep src s) := by
      cases fast with
      | true =>
        have h := fastStep_ok hB hip0 hipn hop0 (by rw [hsz]; exact hfast rfl)
        rw [hsz] at h
        simpa using h
      | false =>
        have h := safeStep_ok hB hip0 hipn hop0 (by rw [hsz]; exact hopm)
        rw [hsz] at h
        simpa using h
    obtain ⟨r, hr, hgood⟩ := OkGood_elim hstep
    rw [hr]
    simp only [bind, Except.bind]
    cases r with
    | next fast2 s2 =>
      obtain ⟨hInv2, hadv⟩ := hgood
      exact ih fast2 s2 hInv2 (by push_cast at hf ⊢; omega)
    | stop ret d' => exact hgood

/-- Totality and memory safety of the bounds-checked entry point, for every
source buffer of byte values, every destination buffer and both settings of
the fast-loop switch. -/
theorem LZ4_decompress_safe_ok {src dst0 : Array Nat} {fl : Bool} (hB : ByteArr src) :
    OkRun dst0.size (LZ4_decompress_safe (some src) dst0 fl) := by
  simp only [LZ4_decompress_safe, LZ4_decompress_generic]
  by_cases hm : (dst0.size : Int) = 0
  · rw [if_pos hm]
    by_cases hn1 : (src.size : Int) = 1
    · rw [if_pos hn1]
      have hb : rdSrc src 0 = .ok (src.getD (0 : Int).toNat 0) :=
        rdSrc_ok (by omega) (by omega)
      rw [hb]
      simp only [bind, Except.bind]
      by_cases hz : src.getD (0 : Int).toNat 0 = 0
      · rw [if_pos hz]; exact ⟨rfl, Or.inr ⟨by omega, by omega⟩⟩
      · rw [if_neg hz]; exact ⟨rfl, Or.inl (by omega)⟩
    · rw [if_neg hn1]
      exact ⟨rfl, Or.inl (by omega)⟩
  · rw [if_neg hm]
    by_cases hn : (src.size : Int) = 0
    · rw [if_pos hn]
      exact ⟨rfl, Or.inl (by omega)⟩
    · rw [if_neg hn]
      refine runLoop_ok hB (src.size + 1) _ ⟨0, 0, dst0⟩
        ⟨rfl, le_refl _, show (0 : Int) < (src.size : Int) by omega, le_refl _,
          show (0 : Int) ≤ (dst0.size : Int) by omega, ?_⟩
        (show (src.size : Int) < 0 + ((src.size + 1 : Nat) : Int) by push_cast; omega)
      intro hfast
      have h64 : (fl : Prop) ∧ 64 ≤ (dst0.size : Int) := of_decide_eq_true hfast
      show (0 : Int) + 64 ≤ (dst0.size : Int)
      omega

/-! ### Full characterisation of `read_variable_length` (claim C4) -/

/-- Sum of `k` consecutive source bytes starting at cursor `ip`. -/
def sumBytes (src : Array Nat) (ip : Int) : Nat → Nat
  | 0 => 0
  | k + 1 => src.getD ip.toNat 0 + sumBytes src (ip + 1) k

theorem readVarLenGo_spec {src : Array Nat} {lencheck : Int} {lc : Bool} :
    ∀ (fuel : Nat) (ip : Int) (acc : Nat) (r : VarLenRes),
      readVarLenGo src lencheck lc fuel ip acc = .ok r →
      ip < r.ip ∧ r.add = (acc + sumBytes src ip (r.ip - ip).toNat) % 4294967296 ∧
        (∀ j : Nat, (j : Int) < r.ip - ip - 1 → src.getD (ip + (j : Int)).toNat 0 = 255) ∧
        r.err ≠ .initial ∧
        (r.err = .vlOk → src.getD (r.ip - 1).toNat 0 ≠ 255 ∧
          (lc = true → r.ip < lencheck)) ∧
        (r.err = .loopErr ↔ lc = true ∧ r.ip ≥ lencheck) := by
  intro fuel
  induction fuel with
  | zero => intro ip acc r h; exact absurd h (by simp [readVarLenGo])
  | succ fuel ih =>
    intro ip acc r h
    rw [readVarLenGo] at h
    cases hb : rdSrc src ip with
    | error e => rw [hb] at h; exact absurd h (by simp [bind, Except.bind])
    | ok s =>
      have hs : s = src.getD ip.toNat 0 := by
        rw [rdSrc] at hb
        by_cases hin : 0 ≤ ip ∧ ip < (src.size : Int)
        · rw [if_pos hin] at hb
          exact (Except.ok.inj hb).symm
        · rw [if_neg hin] at hb
          exact absurd hb (by simp)
      rw [hb] at h
      simp only [bind, Except.bind] at h
      by_cases hstop : (lc : Prop) ∧ ip + 1 ≥ lencheck
      · rw [if_pos hstop] at h
        have hr : r = ⟨.loopErr, (acc + s) % 4294967296, ip + 1⟩ := (Except.ok.inj h).symm
        subst hr
        dsimp only
        have h1 : (ip + 1 - ip).toNat = 1 := by omega
        refine ⟨by omega, ?_, ?_, by simp, by simp, ?_⟩
        · rw [h1, sumBytes, sumBytes, hs]
          omega
        · intro j hj
          exact absurd hj (by omega)
        · exact ⟨fun _ => ⟨hstop.1, hstop.2⟩, fun _ => rfl⟩
      · rw [if_neg hstop] at h
        by_cases h255 : s = 255
        · rw [if_pos h255] at h
          obtain ⟨ih1, ih2, ih3, ih4, ih5, ih6⟩ := ih (ip + 1) ((acc + s) % 4294967296) r h
          have hcnt : (r.ip - ip).toNat = (r.ip - (ip + 1)).toNat + 1 := by omega
          refine ⟨by omega, ?_, ?_, ih4, ih5, ih6⟩
          · rw [hcnt, sumBytes]
            omega
          · intro j hj
            cases j with
            | zero =>
              have hidx : ip + ((0 : Nat) : Int) = ip := by push_cast; ring
              rw [hidx, ← hs]
              exact h255
            | succ jj =>
              have hidx : ip + ((jj + 1 : Nat) : Int) = ip + 1 + (jj : Int) := by
                push_cast; ring
              rw [hidx]
              exact ih3 jj (by push_cast at hj ⊢; omega)
        · rw [if_neg h255] at h
          have hr : r = ⟨.vlOk, (acc + s) % 4294967296, ip + 1⟩ := (Except.ok.inj h).symm
          subst hr
          dsimp only
          have h1 : (ip + 1 - ip).toNat = 1 := by omega
          refine ⟨by omega, ?_, ?_, by simp, ?_, ?_⟩
          · rw [h1, sumBytes, sumBytes, hs]
            omega
          · intro j hj
            exact absurd hj (by omega)
          · intro _
            refine ⟨?_, ?_⟩
            · have h2 : ip + 1 - 1 = ip := by omega
              rw [h2, ← hs]
              exact h255
            · intro hlc
              by_contra hge
              exact hstop ⟨hlc, by omega⟩
          · constructor
            · intro hc
              exact absurd hc (by simp)
            · intro ⟨hlc, hge⟩
              exact absurd ⟨hlc, by omega⟩ hstop

/-! ### Claim theorems -/

/-- C4: When `read_variable_length` returns without error it has consumed a
byte sequence whose bytes are all 255 except the last (which is below 255),
its value is the unsigned sum of all consumed bytes — the sum as computed
by the C 32-bit `unsigned` accumulator, i.e. reduced modulo `2^32` — and
the cursor is advanced exactly past them; it returns `initial_error` iff
the initial check is enabled and the cursor is already at or past the
limit before the first read, and `loop_error` iff the loop check is
enabled and the cursor reaches or passes the limit after consuming some
byte. -/
theorem C4_read_variable_length_spec (src : Array Nat) (ip lencheck : Int)
    (lc ic : Bool) (r : VarLenRes) (hB : ByteArr src)
    (h : read_variable_length src ip lencheck lc ic = .ok r) :
    (r.err = .initial ↔ (ic = true ∧ ip ≥ lencheck)) ∧
    (r.err = .initial → r.ip = ip ∧ r.add = 0) ∧
    (r.err ≠ .initial → ip < r.ip ∧
      r.add = sumBytes src ip (r.ip - ip).toNat % 4294967296 ∧
      (∀ j : Nat, (j : Int) < r.ip - ip - 1 → src.getD (ip + (j : Int)).toNat 0 = 255)) ∧
    (r.err = .vlOk → src.getD (r.ip - 1).toNat 0 < 255 ∧ (lc = true → r.ip < lencheck)) ∧
    (r.err = .loopErr ↔ (lc = true ∧ r.ip ≥ lencheck ∧ ip < r.ip)) := by
  rw [read_variable_length] at h
  by_cases hinit : (ic : Prop) ∧ ip ≥ lencheck
  · rw [if_pos hinit] at h
    have hr : r = ⟨.initial, 0, ip⟩ := (Except.ok.inj h).symm
    subst hr
    dsimp only
    refine ⟨⟨fun _ => hinit, fun _ => rfl⟩, fun _ => ⟨rfl, rfl⟩,
      fun hc => absurd rfl hc, by simp, ?_⟩
    constructor
    · intro hc; exact absurd hc (by simp)
    · intro ⟨_, _, hlt⟩; exact absurd hlt (lt_irrefl ip)
  · rw [if_neg hinit] at h
    obtain ⟨g1, g2, g3, g4, g5, g6⟩ := readVarLenGo_spec _ _ _ _ h
    refine ⟨⟨fun hc => absurd hc g4, fun hc => absurd hc hinit⟩,
      fun hc => absurd hc g4, fun _ => ⟨g1, by omega, g3⟩, ?_, ?_⟩
    · intro hv
      exact ⟨lt_of_le_of_ne (getD_le_255 hB _) (g5 hv).1, (g5 hv).2⟩
    · constructor
      · intro hc
        exact ⟨(g6.mp hc).1, (g6.mp hc).2, g1⟩
      · intro ⟨a, b, _⟩
        exact g6.mpr ⟨a, b⟩

/-- Witness for C4 at the concrete input `src = [255, 3, 9]`, cursor 0,
limit 3, both checks enabled: the call returns `ok` with sum `255 + 3 = 258`
and cursor 2. -/
theorem C4_witness :
    (258 : Nat) = sumBytes #[255, 3, 9] 0 ((2 : Int) - 0).toNat % 4294967296 ∧
      #[255, 3, 9].getD ((2 : Int) - 1).toNat 0 < 255 := by
  have h := C4_read_variable_length_spec #[255, 3, 9] 0 3 true true
    ⟨.vlOk, 258, 2⟩ (by decide) (by decide)
  exact ⟨(h.2.2.1 (by decide)).2.1, (h.2.2.2.1 (by decide)).1⟩

/-- C5: `LZ4_compressBound(isize)` is `isize + isize/255 + 16` for every
`int` input in `[0, LZ4_MAX_INPUT_SIZE]`, and 0 for every `int` input that
is negative or above `LZ4_MAX_INPUT_SIZE = 2113929216`. -/
theorem C5_compressBound_formula (isize : Int) :
    (0 ≤ isize ∧ isize ≤ 2113929216 →
      LZ4_compressBound isize = isize + isize / 255 + 16) ∧
    ((-2147483648 ≤ isize ∧ isize < 0) ∨ (2113929216 < isize ∧ isize < 2147483648) →
      LZ4_compressBound isize = 0) := by
  constructor
  · intro h
    rw [LZ4_compressBound, LZ4_COMPRESSBOUND, if_neg (by omega)]
  · intro h
    rw [LZ4_compressBound, LZ4_COMPRESSBOUND, if_pos (by omega)]

/-- Witness for C5 at 1000 (in range: 1000 + 3 + 16) and -5 (negative). -/
theorem C5_witness : LZ4_compressBound 1000 = 1019 ∧ LZ4_compressBound (-5) = 0 := by
  constructor
  · rw [(C5_compressBound_formula 1000).1 (by norm_num)]
    decide
  · exact (C5_compressBound_formula (-5)).2 (Or.inl (by norm_num))

/-- C6: with `dstCapacity = 0`, `LZ4_decompress_safe` returns 0 exactly
when the source is the single byte `0x00` (the empty-block encoding), and
-1 for every other source, including an empty one. -/
theorem C6_empty_capacity (src : Array Nat) (fl : Bool) :
    LZ4_decompress_safe (some src) #[] fl =
      .ok (if src.size = 1 ∧ src.getD 0 0 = 0 then (0 : Int) else -1, #[]) := by
  simp only [LZ4_decompress_safe, LZ4_decompress_generic]
  rw [if_pos (show ((#[] : Array Nat).size : Int) = 0 by simp)]
  by_cases hn1 : (src.size : Int) = 1
  · rw [if_pos hn1]
    have hb : rdSrc src 0 = .ok (src.getD (0 : Int).toNat 0) :=
      rdSrc_ok (by omega) (by omega)
    rw [hb]
    simp only [bind, Except.bind]
    have hnat : src.size = 1 := by omega
    by_cases hz : src.getD (0 : Int).toNat 0 = 0
    · rw [if_pos hz, if_pos ⟨hnat, hz⟩]
      rfl
    · rw [if_neg hz, if_neg (show ¬(src.size = 1 ∧ src.getD 0 0 = 0) from
        fun ⟨_, h0⟩ => hz h0)]
      rfl
  · rw [if_neg hn1]
    rw [if_neg (show ¬(src.size = 1 ∧ src.getD 0 0 = 0) from
      fun ⟨h1, _⟩ => hn1 (by omega))]

/-- C10: a NULL source pointer makes `LZ4_decompress_generic`, and hence
`LZ4_decompress_safe`, return -1 immediately for every destination buffer
and either loop flavour, with the destination untouched and no memory
access performed. -/
theorem C10_null_source (dst0 : Array Nat) (fl : Bool) :
    LZ4_decompress_generic none dst0 fl = .ok (-1, dst0) ∧
      LZ4_decompress_safe none dst0 fl = .ok (-1, dst0) :=
  ⟨rfl, rfl⟩

/-- C1: for every source buffer (of byte values, arbitrary content
including corrupted and adversarial bytes), every destination buffer and
both fast-loop settings, `LZ4_decompress_safe` never accesses memory
outside `src[0..compressedSize)` or `dst[0..dstCapacity)`: every access in
the model is bounds-checked and would yield a `DecErr` outcome, and the
call always yields `.ok` instead; the destination keeps its size (writes
are confined to it), and the result is either a negative (malformed-input)
value or a decoded byte count within the capacity. -/
theorem C1_decompress_safe_memory_safe (src dst0 : Array Nat) (fl : Bool)
    (hB : ByteArr src) :
    ∃ ret d, LZ4_decompress_safe (some src) dst0 fl = .ok (ret, d) ∧
      d.size = dst0.size ∧ (ret < 0 ∨ (0 ≤ ret ∧ ret ≤ (dst0.size : Int))) := by
  have h := @LZ4_decompress_safe_ok src dst0 fl hB
  cases hx : LZ4_decompress_safe (some src) dst0 fl with
  | ok p =>
    obtain ⟨ret, dd⟩ := p
    rw [hx] at h
    exact ⟨ret, dd, rfl, h.1, h.2⟩
  | error e =>
    rw [hx] at h
    exact absurd h (by simp [OkRun])

/-- Witness for C1: decoding the literal-only block `[0x40, a, b, c, d]`
into a 4-byte destination. -/
theorem C1_witness : ByteArr #[64, 97, 98, 99, 100] ∧
    ∃ ret d, LZ4_decompress_safe (some #[64, 97, 98, 99, 100])
        (Array.mkArray 4 0) true = .ok (ret, d) ∧
      d.size = (Array.mkArray 4 0).size ∧
      (ret < 0 ∨ (0 ≤ ret ∧ ret ≤ ((Array.mkArray 4 0).size : Int))) :=
  ⟨by decide, C1_decompress_safe_memory_safe #[64, 97, 98, 99, 100]
    (Array.mkArray 4 0) true (by decide)⟩

/-- C8: every iteration of either decode loop that continues advances the
input cursor by at least the token byte it consumed, and a call to
`LZ4_decompress_safe` on a finite source always returns (the loop driver's
fuel `srcSize + 1` is never exhausted). -/
theorem C8_loops_terminate :
    (∀ (src : Array Nat) (fast fast2 : Bool) (s s2 : S), ByteArr src →
      InvS src s.dst.size fast s →
      (if fast then fastStep src s else safeStep src s) = .ok (.next fast2 s2) →
      s.ip + 1 ≤ s2.ip) ∧
    (∀ (src dst0 : Array Nat) (fl : Bool), ByteArr src →
      ∃ p, LZ4_decompress_safe (some src) dst0 fl = .ok p) := by
  constructor
  · intro src fast fast2 s s2 hB hInv hstep
    obtain ⟨hsz, hip0, hipn, hop0, hopm, hfast⟩ := hInv
    have hok : OkGood src s.dst.size (s.ip + 1)
        (if fast then fastStep src s else safeStep src s) := by
      cases fast with
      | true => simpa using fastStep_ok hB hip0 hipn hop0 (hfast rfl)
      | false => simpa using safeStep_ok hB hip0 hipn hop0 hopm
    rw [hstep] at hok
    exact hok.2
  · intro src dst0 fl hB
    have h := @LZ4_decompress_safe_ok src dst0 fl hB
    cases hx : LZ4_decompress_safe (some src) dst0 fl with
    | ok p => exact Exists.intro p rfl
    | error e =>
      rw [hx] at h
      exact absurd h (by simp [OkRun])

/-- Witness for C8: one concrete safe-loop iteration (on the block of the
C3 counterexample) advances the input cursor from 0 to 3, and a concrete
call returns. -/
theorem C8_witness : (0 : Int) + 1 ≤ (3 : Int) ∧
    ∃ p, LZ4_decompress_safe (some #[16, 97]) (Array.mkArray 10 0) false = .ok p :=
  ⟨C8_loops_terminate.1 #[0, 0, 0, 80, 1, 2, 3, 4, 5] false false
      ⟨0, 0, Array.mkArray 16 0⟩ ⟨3, 4, Array.mkArray 16 0⟩ (by decide) (by decide)
      (by decide),
    C8_loops_terminate.2 #[16, 97] (Array.mkArray 10 0) false (by decide)⟩

/-- Counterexample for C2: the block `[0x10, 'a']` (one literal, terminal
sequence) decoded into a 10-byte destination consumes the input exactly and
fills only 1 of the 10 output bytes, yet `LZ4_decompress_safe` returns the
success count 1 — not a negative value as the claim requires. -/
theorem C2_counterexample :
    LZ4_decompress_safe (some #[16, 97]) (Array.mkArray 10 0) false =
      .ok (1, #[97, 0, 0, 0, 0, 0, 0, 0, 0, 0]) := by
  decide

/-- C2 (amended): in non-partial mode the final-sequence branch of the
literal stage succeeds exactly when the sequence consumes the input to its
declared end and does not exceed the output capacity; the output may be
left strictly short of the capacity, in which case the smaller count
`op + length` is returned. -/
theorem C2_final_sequence_exact_input (src d : Array Nat) (token length : Nat)
    (ip op : Int) (hip0 : 0 ≤ ip) (hop0 : 0 ≤ op)
    (hC : op + (length : Int) > (d.size : Int) - 12 ∨
      ip + (length : Int) > (src.size : Int) - 8) :
    (ip + (length : Int) = (src.size : Int) ∧ op + (length : Int) ≤ (d.size : Int) →
      ∃ d', litCopyStage src token length ip op d =
        .ok (.stop (op + (length : Int)) d')) ∧
    (ip + (length : Int) ≠ (src.size : Int) ∨ op + (length : Int) > (d.size : Int) →
      litCopyStage src token length ip op d = .ok (output_error ip d) ∧
        -ip - 1 < 0) := by
  constructor
  · intro ⟨hin, hout⟩
    obtain ⟨d1, hd1, hs1⟩ := @memcpySD_ok src d ip op
      length hip0 (by omega) hop0 (by omega)
    refine ⟨d1, ?_⟩
    simp only [litCopyStage]
    rw [if_pos hC, if_neg (show ¬(ip + (length : Int) ≠ (src.size : Int) ∨
      op + (length : Int) > (d.size : Int)) by push_neg; exact ⟨hin, hout⟩), hd1]
    simp only [bind, Except.bind]
    rfl
  · intro hE
    refine ⟨?_, by omega⟩
    simp only [litCopyStage]
    rw [if_pos hC, if_pos hE]

/-- Witness for C2 (amended) at the counterexample's final sequence:
`token = 0x10`, one literal, `ip = 1`, `op = 0`, 2-byte source, 10-byte
destination — the input-exhausting, output-short sequence succeeds with
count 1, and a sequence not consuming the input exactly errors. -/
theorem C2_witness :
    (∃ d', litCopyStage #[16, 97] 16 1 1 0 (Array.mkArray 10 0) =
      .ok (.stop ((0 : Int) + ((1 : Nat) : Int)) d')) ∧
    (litCopyStage #[16, 97, 99] 16 1 1 0 (Array.mkArray 10 0) =
      .ok (output_error 1 (Array.mkArray 10 0)) ∧ -(1 : Int) - 1 < 0) :=
  ⟨(C2_final_sequence_exact_input #[16, 97] (Array.mkArray 10 0) 16 1 1 0
      (by decide) (by decide) (by decide)).1 (by decide),
   (C2_final_sequence_exact_input #[16, 97, 99] (Array.mkArray 10 0) 16 1 1 0
      (by decide) (by decide) (by decide)).2 (by decide)⟩

/-- Counterexample for C3: a block whose first sequence has offset 0
(bytes `[0x00, 0x00, 0x00, 0x50, 1, 2, 3, 4, 5]`: token `0x00`, offset
`0x0000`, then a terminal 5-literal sequence) is not rejected:
`LZ4_decompress_safe` returns the success count 9. -/
theorem C3_counterexample :
    LZ4_decompress_safe (some #[0, 0, 0, 80, 1, 2, 3, 4, 5]) (Array.mkArray 16 0)
      true = .ok (9, #[0, 0, 0, 0, 1, 2, 3, 4, 5, 0, 0, 0, 0, 0, 0, 0]) := by
  decide

/-- C3 (amended): an offset of 0 is not rejected as malformed.  The offset
check `match + dictSize < lowPrefix` never fires for offset 0 (the match
position equals the current output position), the engine zeroes four bytes
at the match position and performs the self-copy, and the match stage
continues normally; a block containing an offset-0 sequence can decode
successfully, the match producing zero bytes (as in the concrete block of
the counterexample, whose first four output bytes are zeros). -/
theorem C3_offset_zero_accepted :
    (∀ (d : Array Nat) (length : Nat) (ip op : Int), 0 ≤ op → 4 ≤ length →
      op + (length : Int) ≤ (d.size : Int) - 12 →
      ∃ d', matchCopyStage length 0 ip op d =
        .ok (.next false ⟨ip, op + (length : Int), d'⟩)) ∧
    LZ4_decompress_safe (some #[0, 0, 0, 80, 1, 2, 3, 4, 5]) (Array.mkArray 16 0)
      false = .ok (9, #[0, 0, 0, 0, 1, 2, 3, 4, 5, 0, 0, 0, 0, 0, 0, 0]) := by
  constructor
  · intro d length ip op hop0 hlen hfit
    simp only [matchCopyStage]
    rw [if_neg (show ¬(op - ((0 : Nat) : Int) + 0 < 0) by omega)]
    obtain ⟨d1, m3, hhd, hs1, hm30, hm3op⟩ :=
      @matchCopyHead_ok d (op - ((0 : Nat) : Int)) op
        0 rfl (by omega) (by omega)
    rw [hhd]
    simp only [bind, Except.bind]
    rw [if_neg (show ¬(op + (length : Int) > (d.size : Int) - 12) by omega)]
    obtain ⟨d2, hd2, hs2⟩ := @memcpyDD_ok d1 m3 (op + 8) 8
      (by omega) (by omega) (by omega) (by omega)
    rw [hd2]
    simp only [bind, Except.bind]
    by_cases h16 : 16 < length
    · rw [if_pos h16]
      obtain ⟨d3, hd3, hs3⟩ := @LZ4_wildCopy8DD_ok d2 (m3 + 8)
        (op + 8 + 8) (op + (length : Int)) (by omega) (by omega)
        (by omega) (by omega) (by omega) (by omega)
      rw [hd3]
      simp only [bind, Except.bind]
      exact ⟨d3, rfl⟩
    · rw [if_neg h16]
      simp only [bind, Except.bind, pure, Except.pure]
      exact ⟨d2, rfl⟩
  · decide

/-- Witness for C3 (amended): a minimal offset-0 match copy of length 4 at
output position 0 of a 16-byte buffer continues (is not rejected). -/
theorem C3_witness :
    ∃ d', matchCopyStage 4 0 3 0 (Array.mkArray 16 0) =
      .ok (.next false ⟨3, (0 : Int) + (4 : Nat), d'⟩) :=
  C3_offset_zero_accepted.1 (Array.mkArray 16 0) 4 3 0 (by decide) (by decide)
    (by decide)

/-- Counterexample for C7: the 5-byte block `[0x22, 'a', 'b', 0x02, 0x00]`
decoded by `LZ4_decompress_safe` into a destination of capacity 8 does not
succeed: it returns the negative value -2 (and writes nothing), not the
8 bytes `a b a b a b a b`. -/
theorem C7_counterexample :
    decRet (LZ4_decompress_safe (some #[34, 97, 98, 2, 0]) (Array.mkArray 8 0) true) =
      some (-2) ∧ (-2 : Int) < 0 := by
  decide

/-- C7 (amended): the 5-byte block `[0x22, 'a', 'b', 0x02, 0x00]` decoded
into a destination of capacity 8 is rejected with the negative return -2
under both loop flavours: at capacity 8 the literal stage classifies the
first sequence as final (`cpy > oend - MFLIMIT`), and the sequence does not
consume the input exactly, so the block violates the end-of-block parsing
restriction and no output is produced. -/
theorem C7_block_rejected_at_capacity_8 : ∀ fl : Bool,
    LZ4_decompress_safe (some #[34, 97, 98, 2, 0]) (Array.mkArray 8 0) fl =
      .ok (-2, Array.mkArray 8 0) := by
  intro fl
  cases fl <;> decide

end LZ4
